import Mathlib

/-!
Verification of the doubly-linked-list deque in `src/Deque.hxx` (namespace
`ipd`).  The C++ container is embedded shallowly: heap nodes live in an
address-indexed heap, a deque is the triple of member variables
`head_`, `tail_`, `size_`, and every member function is translated
line by line into a function in the `Option` monad, where `none`
models a null-pointer dereference (undefined behaviour) or, for the
fuel-instrumented loops, a loop that did not finish within the given
fuel.  Allocation (`new node_(value)`) stores a node at the next fresh
address; the C++ code contains no `delete`, so nothing is ever removed
from the heap.
-/

namespace IpdDeque

/-- A heap node: `struct node_ { T val; node_ *prev; node_ *next; };`
with null pointers modelled as `none` and addresses as `Nat`. -/
structure Node (T : Type) where
  val : T
  prev : Option Nat
  next : Option Nat
  deriving Repr, DecidableEq

/-- The heap: a partial map from addresses to nodes. -/
def Heap (T : Type) : Type := Nat → Option (Node T)

/-- Allocation state: the heap together with the next fresh address. -/
structure St (T : Type) where
  heap : Heap T
  nextAddr : Nat

/-- The private member variables of `Deque<T>`:
`node_ *head_; node_ *tail_; size_t size_;`. -/
structure Dq where
  head_ : Option Nat
  tail_ : Option Nat
  size_ : Nat
  deriving Repr, DecidableEq

/-- Heap update at one address. -/
def hupd {T : Type} (h : Heap T) (a : Nat) (n : Node T) : Heap T :=
  fun b => if b = a then some n else h b

/-- Allocate `new node_(value)`: the node is placed at the next fresh
address with `prev` and `next` initialized to null. -/
def alloc {T : Type} (s : St T) (v : T) : St T × Nat :=
  ({ heap := hupd s.heap s.nextAddr ⟨v, none, none⟩,
     nextAddr := s.nextAddr + 1 }, s.nextAddr)

/-- Write through a possibly-null pointer to the `prev` field
(`p->prev = q`); `none` when `p` is null or dangling. -/
def setPrev {T : Type} (h : Heap T) (p : Option Nat) (q : Option Nat) :
    Option (Heap T) := do
  let a ← p
  let n ← h a
  return hupd h a { n with prev := q }

/-- Write through a possibly-null pointer to the `next` field
(`p->next = q`). -/
def setNext {T : Type} (h : Heap T) (p : Option Nat) (q : Option Nat) :
    Option (Heap T) := do
  let a ← p
  let n ← h a
  return hupd h a { n with next := q }

/-- Read `p->next` through a possibly-null pointer. -/
def getNext {T : Type} (h : Heap T) (p : Option Nat) : Option (Option Nat) := do
  let a ← p
  let n ← h a
  return n.next

/-- Read `p->prev` through a possibly-null pointer. -/
def getPrev {T : Type} (h : Heap T) (p : Option Nat) : Option (Option Nat) := do
  let a ← p
  let n ← h a
  return n.prev

/-- The member function `bool empty() const { return size_ == 0; }`. -/
def emptyQ (d : Dq) : Bool := d.size_ == 0

/-- The member function `size_t size() const { return size_; }`. -/
def sizeQ (d : Dq) : Nat := d.size_

/-- The member functions `front()` (`return head_->val;`): `none` models
the null dereference on an empty deque. -/
def frontV {T : Type} (s : St T) (d : Dq) : Option T := do
  let a ← d.head_
  let n ← s.heap a
  return n.val

/-- The member functions `back()` (`return tail_->val;`). -/
def backV {T : Type} (s : St T) (d : Dq) : Option T := do
  let a ← d.tail_
  let n ← s.heap a
  return n.val

/-- The member function `push_front`:
`new node_(value)`; if empty, head and tail become the new node, else
`head_->prev = newNode; newNode->next = head_; head_ = newNode;`
then `size_++`. -/
def push_front {T : Type} (s : St T) (d : Dq) (v : T) : Option (St T × Dq) :=
  let (s1, a) := alloc s v
  if d.size_ = 0 then
    some (s1, ⟨some a, some a, d.size_ + 1⟩)
  else do
    let h1 ← setPrev s1.heap d.head_ (some a)
    let h2 ← setNext h1 (some a) d.head_
    return ({ s1 with heap := h2 }, ⟨some a, d.tail_, d.size_ + 1⟩)

/-- The member function `push_back`:
`new node_(value)`; if empty, head and tail become the new node, else
`tail_->next = newNode; newNode->prev = tail_; tail_ = newNode;`
then `size_++`. -/
def push_back {T : Type} (s : St T) (d : Dq) (v : T) : Option (St T × Dq) :=
  let (s1, a) := alloc s v
  if d.size_ = 0 then
    some (s1, ⟨some a, some a, d.size_ + 1⟩)
  else do
    let h1 ← setNext s1.heap d.tail_ (some a)
    let h2 ← setPrev h1 (some a) d.tail_
    return ({ s1 with heap := h2 }, ⟨d.head_, some a, d.size_ + 1⟩)

/-- The member function `pop_front`: no-op when empty; when
`head_ == tail_` both pointers become null; otherwise
`head_ = head_->next; head_->prev = nullptr;`; then `size_--`.
The removed node is never deallocated (the code has no `delete`). -/
def pop_front {T : Type} (s : St T) (d : Dq) : Option (St T × Dq) :=
  if d.size_ = 0 then
    some (s, d)
  else if d.head_ = d.tail_ then
    some (s, ⟨none, none, d.size_ - 1⟩)
  else do
    let newHead ← getNext s.heap d.head_
    let h1 ← setPrev s.heap newHead none
    return ({ s with heap := h1 }, ⟨newHead, d.tail_, d.size_ - 1⟩)

/-- The member function `pop_back`: no-op when empty; when
`head_ == tail_` both pointers become null; otherwise
`tail_ = tail_->prev; tail_->next = nullptr;`; then `size_--`.
The removed node is never deallocated. -/
def pop_back {T : Type} (s : St T) (d : Dq) : Option (St T × Dq) :=
  if d.size_ = 0 then
    some (s, d)
  else if d.head_ = d.tail_ then
    some (s, ⟨none, none, d.size_ - 1⟩)
  else do
    let newTail ← getPrev s.heap d.tail_
    let h1 ← setNext s.heap newTail none
    return ({ s with heap := h1 }, ⟨d.head_, newTail, d.size_ - 1⟩)

/-- The loop of `clear`: `while (!empty()) pop_front();`, instrumented
with fuel.  `pop_front` lowers `size_` by one on every non-empty
iteration, so `size_` units of fuel are exactly the iterations the
C++ loop performs; `none` with remaining non-emptiness means the fuel
ran out (which `clear_spec` shows never happens from a well-formed
deque). -/
def clearLoop {T : Type} : Nat → St T → Dq → Option (St T × Dq)
  | 0, s, d => if d.size_ = 0 then some (s, d) else none
  | fuel + 1, s, d =>
    if d.size_ = 0 then some (s, d)
    else do
      let (s1, d1) ← pop_front s d
      clearLoop fuel s1 d1

/-- The member function `clear()`. -/
def clear {T : Type} (s : St T) (d : Dq) : Option (St T × Dq) :=
  clearLoop d.size_ s d

/-- The copy loop shared by the copy constructor and `operator=`:
`for (node_ *curr = other.head_; curr != nullptr; curr = curr->next)
push_back(curr->val);`, instrumented with fuel (the source chain of a
well-formed deque has exactly `size_` nodes).  The loop increment
`curr = curr->next` is executed after the body, so `next` is re-read
from the heap left by `push_back`. -/
def copyLoop {T : Type} : Nat → St T → Dq → Option Nat → Option (St T × Dq)
  | 0, s, d, curr => match curr with
    | none => some (s, d)
    | some _ => none
  | fuel + 1, s, d, curr =>
    match curr with
    | none => some (s, d)
    | some a => do
      let n ← s.heap a
      let (s1, d1) ← push_back s d n.val
      let n2 ← s1.heap a
      copyLoop fuel s1 d1 n2.next

/-- The copy constructor `Deque(const Deque &other)`: start from the
default-constructed deque and `push_back` every value of `other` in
front-to-back order. -/
def copyCtor {T : Type} (s : St T) (src : Dq) : Option (St T × Dq) :=
  copyLoop src.size_ s ⟨none, none, 0⟩ src.head_

/-- The copy-assignment `operator=` for two distinct objects:
`clear(); for (curr = other.head_; ...) push_back(curr->val);`.
Since `other` is a different object, clearing `*this` leaves
`other.head_` as it was. -/
def assign {T : Type} (s : St T) (dst src : Dq) : Option (St T × Dq) := do
  let (s1, d1) ← clear s dst
  copyLoop src.size_ s1 d1 src.head_

/-- The copy-assignment `operator=` when `other` aliases `*this`
(self-assignment `a = a`): after `clear()` the loop reads
`other.head_` from the object just cleared, so it starts at null and
copies nothing. -/
def assignSelf {T : Type} (s : St T) (d : Dq) : Option (St T × Dq) := do
  let (s1, d1) ← clear s d
  copyLoop d1.size_ s1 d1 d1.head_

/-- The drain loop of `splice` for two distinct deques:
`while (!that.empty() && !empty()) { push_back(that.front()); that.pop_front(); }`,
instrumented with fuel (each iteration lowers `that.size_` by one, so
`that.size_` units suffice for a well-formed pair). -/
def spliceLoop {T : Type} : Nat → St T → Dq → Dq → Option (St T × Dq × Dq)
  | 0, s, a, b =>
    if b.size_ = 0 ∨ a.size_ = 0 then some (s, a, b) else none
  | fuel + 1, s, a, b =>
    if b.size_ = 0 ∨ a.size_ = 0 then some (s, a, b)
    else do
      let v ← frontV s b
      let (s1, a1) ← push_back s a v
      let (s2, b1) ← pop_front s1 b
      spliceLoop fuel s2 a1 b1

/-- The member function `splice(Deque &that)` for two distinct deques:
return if `that` is empty; adopt `that`'s pointers if `*this` is
empty; otherwise drain `that` through the loop and finally
`size_ += that.size_`. -/
def splice {T : Type} (s : St T) (a b : Dq) : Option (St T × Dq × Dq) :=
  if b.size_ = 0 then some (s, a, b)
  else if a.size_ = 0 then
    some (s, ⟨b.head_, b.tail_, b.size_⟩, ⟨none, none, 0⟩)
  else do
    let (s1, a1, b1) ← spliceLoop b.size_ s a b
    return (s1, { a1 with size_ := a1.size_ + b1.size_ }, b1)

/-- The drain loop of `splice` when `that` aliases `*this`
(`a.splice(a)`): both loop conditions read the same object, the body
pushes a copy of the front onto the back and pops the front, and the
size is unchanged by each iteration.  `none` means the fuel ran out
with the loop still running. -/
def spliceSelfLoop {T : Type} : Nat → St T → Dq → Option (St T × Dq)
  | 0, s, d => if d.size_ = 0 then some (s, d) else none
  | fuel + 1, s, d =>
    if d.size_ = 0 then some (s, d)
    else do
      let v ← frontV s d
      let (s1, d1) ← push_back s d v
      let (s2, d2) ← pop_front s1 d1
      spliceSelfLoop fuel s2 d2

/-- The member function `splice` called with `that` aliasing `*this`,
given `fuel` iterations of the drain loop: return if empty, otherwise
run the loop and finally `size_ += that.size_` on the same object. -/
def spliceSelf {T : Type} (fuel : Nat) (s : St T) (d : Dq) :
    Option (St T × Dq) :=
  if d.size_ = 0 then some (s, d)
  else do
    let (s1, d1) ← spliceSelfLoop fuel s d
    return (s1, { d1 with size_ := d1.size_ + d1.size_ })

/-- A well-formed chain segment: starting at pointer `o` whose first
node's `prev` link is `pr`, the segment visits exactly the addresses
`as` carrying the values `vs`, and leaves with prev-pointer `pr'`
(the last address of `as`, or `pr` if `as` is empty) and next-pointer
`o'` (the `next` field of the last node, or `o` if `as` is empty). -/
def seg {T : Type} (h : Heap T) :
    Option Nat → Option Nat → List Nat → List T → Option Nat → Option Nat → Prop
  | pr, o, [], [], pr', o' => pr' = pr ∧ o' = o
  | pr, o, a :: as, v :: vs, pr', o' =>
    o = some a ∧ ∃ n, h a = some n ∧ n.val = v ∧ n.prev = pr ∧
      seg h (some a) n.next as vs pr' o'
  | _, _, _, _, _, _ => False

/-- The structural invariant of a deque: the chain from `head_` (whose
first `prev` is null) visits distinct addresses `as` holding values
`vs`, exits with null `next`, and its last address is `tail_`;
`size_` counts the addresses, and every address is below the
allocation bound. -/
structure Wf {T : Type} (s : St T) (d : Dq) (as : List Nat) (vs : List T) :
    Prop where
  ch : seg s.heap none d.head_ as vs d.tail_ none
  sz : d.size_ = as.length
  nd : as.Nodup
  fresh : ∀ a ∈ as, a < s.nextAddr

/-- A deque is well-formed when some address/value lists witness it. -/
def wf {T : Type} (s : St T) (d : Dq) : Prop := ∃ as vs, Wf s d as vs

/-- Walk the `next` pointers: the front-to-back value sequence of a
deque, reading at most `fuel` nodes. -/
def traverse {T : Type} (h : Heap T) : Nat → Option Nat → List T
  | 0, _ => []
  | _ + 1, none => []
  | fuel + 1, some a =>
    match h a with
    | none => []
    | some n => n.val :: traverse h fuel n.next

/-- The observable front-to-back contents of a deque (`size_` nodes
starting at `head_`). -/
def toList {T : Type} (s : St T) (d : Dq) : List T :=
  traverse s.heap d.size_ d.head_

/-- Pointer reached from `p` after `k` steps of `->next`; `none`
models a null dereference along the way. -/
def nexts {T : Type} (h : Heap T) : Nat → Option Nat → Option (Option Nat)
  | 0, p => some p
  | k + 1, p => do
    let a ← p
    let n ← h a
    nexts h k n.next

/-- The default-constructed deque `Deque()`. -/
def emptyDq : Dq := ⟨none, none, 0⟩

/-- An empty allocation state. -/
def emptySt (T : Type) : St T := ⟨fun _ => none, 0⟩

/-- One public mutating operation of the deque interface. -/
inductive MOp (T : Type) where
  | pushF (v : T)
  | pushB (v : T)
  | popF
  | popB
  | clearM

/-- Run one mutating member function on a deque. -/
def applyM {T : Type} (s : St T) (d : Dq) : MOp T → Option (St T × Dq)
  | .pushF v => push_front s d v
  | .pushB v => push_back s d v
  | .popF => pop_front s d
  | .popB => pop_back s d
  | .clearM => clear s d

/-- Run a sequence of mutating member functions on a deque. -/
def runM {T : Type} : List (MOp T) → St T → Dq → Option (St T × Dq)
  | [], s, d => some (s, d)
  | op :: ops, s, d => do
    let (s1, d1) ← applyM s d op
    runM ops s1 d1

/-- The effect of one mutating operation on `size_` (pushes increment,
pops decrement saturating at zero, clear zeroes). -/
def mSize {T : Type} : MOp T → Nat → Nat
  | .pushF _, n => n + 1
  | .pushB _, n => n + 1
  | .popF, n => n - 1
  | .popB, n => n - 1
  | .clearM, _ => 0

/-- A push or pop operation (the four end operations, without clear). -/
inductive PP (T : Type) where
  | pf (v : T)
  | pb (v : T)
  | qf
  | qb

/-- Embed a push/pop operation into the mutating operations. -/
def toMOp {T : Type} : PP T → MOp T
  | .pf v => .pushF v
  | .pb v => .pushB v
  | .qf => .popF
  | .qb => .popB

/-- Run a sequence of push/pop operations. -/
def runPP {T : Type} (ops : List (PP T)) (s : St T) (d : Dq) :
    Option (St T × Dq) :=
  runM (ops.map toMOp) s d

/-- Number of pushes in a sequence of push/pop operations. -/
def ppPushes {T : Type} : List (PP T) → Nat
  | [] => 0
  | .pf _ :: ops => ppPushes ops + 1
  | .pb _ :: ops => ppPushes ops + 1
  | .qf :: ops => ppPushes ops
  | .qb :: ops => ppPushes ops

/-- Number of pops that actually remove an element, starting from the
given size (a pop on an empty deque counts zero). -/
def ppEffPops {T : Type} : List (PP T) → Nat → Nat
  | [], _ => 0
  | .pf _ :: ops, n => ppEffPops ops (n + 1)
  | .pb _ :: ops, n => ppEffPops ops (n + 1)
  | .qf :: ops, n => (if n = 0 then 0 else 1) + ppEffPops ops (n - 1)
  | .qb :: ops, n => (if n = 0 then 0 else 1) + ppEffPops ops (n - 1)

/-- Push every value of the list with `push_back`, left to right. -/
def pushBackAll {T : Type} : St T → Dq → List T → Option (St T × Dq)
  | s, d, [] => some (s, d)
  | s, d, v :: l => do
    let (s1, d1) ← push_back s d v
    pushBackAll s1 d1 l

/-- Push every value of the list with `push_front`, left to right. -/
def pushFrontAll {T : Type} : St T → Dq → List T → Option (St T × Dq)
  | s, d, [] => some (s, d)
  | s, d, v :: l => do
    let (s1, d1) ← push_front s d v
    pushFrontAll s1 d1 l

/-- Read `front()` then `pop_front()`, `k` times, collecting the values
read in order. -/
def popFrontAll {T : Type} : Nat → St T → Dq → Option (List T × St T × Dq)
  | 0, s, d => some ([], s, d)
  | k + 1, s, d => do
    let v ← frontV s d
    let (s1, d1) ← pop_front s d
    let (l, s2, d2) ← popFrontAll k s1 d1
    return (v :: l, s2, d2)

/-- Read `back()` then `pop_back()`, `k` times, collecting the values
read in order. -/
def popBackAll {T : Type} : Nat → St T → Dq → Option (List T × St T × Dq)
  | 0, s, d => some ([], s, d)
  | k + 1, s, d => do
    let v ← backV s d
    let (s1, d1) ← pop_back s d
    let (l, s2, d2) ← popBackAll k s1 d1
    return (v :: l, s2, d2)

/-- The aliased call `a.splice(a)` never returns: no amount of loop
fuel completes it. -/
def spliceSelfDiverges (s : St Nat) (d : Dq) : Prop :=
  ∀ fuel, spliceSelf fuel s d = none

/-- Two well-formed deques in one heap sharing no node. -/
def wfPair {T : Type} (s : St T) (d e : Dq) : Prop :=
  ∃ as vs bs ws, Wf s d as vs ∧ Wf s e bs ws ∧ List.Disjoint as bs

/-- A concrete one-element heap: the node at address 0 holds `1`. -/
def exSt : St Nat :=
  ⟨fun a => if a = 0 then some ⟨1, none, none⟩ else none, 1⟩

/-- A concrete deque `[1]` over `exSt`. -/
def exDq : Dq := ⟨some 0, some 0, 1⟩

/-- A concrete heap holding two singleton chains: `1` at address 0 and
`2` at address 1. -/
def exSt2 : St Nat :=
  ⟨fun a => if a = 0 then some ⟨1, none, none⟩
    else if a = 1 then some ⟨2, none, none⟩ else none, 2⟩

/-- The deque `[1]` over `exSt2`. -/
def exA : Dq := ⟨some 0, some 0, 1⟩

/-- The deque `[2]` over `exSt2`. -/
def exB : Dq := ⟨some 1, some 1, 1⟩

end IpdDeque

namespace IpdDeque

theorem seg_nil_iff {T : Type} {h : Heap T} {pr o pr' o' : Option Nat} :
    seg h pr o [] [] pr' o' ↔ pr' = pr ∧ o' = o := Iff.rfl

theorem seg_cons_iff {T : Type} {h : Heap T} {pr o pr' o' : Option Nat}
    {a : Nat} {as : List Nat} {v : T} {vs : List T} :
    seg h pr o (a :: as) (v :: vs) pr' o' ↔
      o = some a ∧ ∃ n, h a = some n ∧ n.val = v ∧ n.prev = pr ∧
        seg h (some a) n.next as vs pr' o' := Iff.rfl

theorem seg_length {T : Type} {h : Heap T} :
    ∀ (as : List Nat) {vs : List T} {pr o pr' o' : Option Nat},
      seg h pr o as vs pr' o' → as.length = vs.length := by
  intro as
  induction as with
  | nil =>
    intro vs pr o pr' o' hs
    cases vs with
    | nil => rfl
    | cons v vs => exact absurd hs (by simp [seg])
  | cons a as ih =>
    intro vs pr o pr' o' hs
    cases vs with
    | nil => exact absurd hs (by simp [seg])
    | cons v vs =>
      obtain ⟨-, n, -, -, -, hrest⟩ := hs
      simpa using ih hrest

theorem seg_congr {T : Type} {h h' : Heap T} :
    ∀ (as : List Nat) {vs : List T} {pr o pr' o' : Option Nat},
      (∀ x ∈ as, h' x = h x) → seg h pr o as vs pr' o' →
      seg h' pr o as vs pr' o' := by
  intro as
  induction as with
  | nil =>
    intro vs pr o pr' o' _ hs
    cases vs with
    | nil => exact hs
    | cons v vs => exact absurd hs (by simp [seg])
  | cons a as ih =>
    intro vs pr o pr' o' hag hs
    cases vs with
    | nil => exact absurd hs (by simp [seg])
    | cons v vs =>
      obtain ⟨ho, n, hn, hv, hp, hrest⟩ := hs
      refine ⟨ho, n, ?_, hv, hp, ih (fun x hx => hag x (List.mem_cons_of_mem a hx)) hrest⟩
      rw [hag a (List.mem_cons_self a as), hn]

theorem seg_append_of {T : Type} {h : Heap T} :
    ∀ (as₁ : List Nat) {vs₁ : List T} {as₂ : List Nat} {vs₂ : List T}
      {pr o pr' o' : Option Nat} (pm om : Option Nat),
      seg h pr o as₁ vs₁ pm om → seg h pm om as₂ vs₂ pr' o' →
      seg h pr o (as₁ ++ as₂) (vs₁ ++ vs₂) pr' o' := by
  intro as₁
  induction as₁ with
  | nil =>
    intro vs₁ as₂ vs₂ pr o pr' o' pm om h₁ h₂
    cases vs₁ with
    | nil =>
      obtain ⟨hpm, hom⟩ := h₁
      simpa [hpm, hom] using h₂
    | cons v vs => exact absurd h₁ (by simp [seg])
  | cons a as ih =>
    intro vs₁ as₂ vs₂ pr o pr' o' pm om h₁ h₂
    cases vs₁ with
    | nil => exact absurd h₁ (by simp [seg])
    | cons v vs =>
      obtain ⟨ho, n, hn, hv, hp, hrest⟩ := h₁
      exact ⟨ho, n, hn, hv, hp, ih pm om hrest h₂⟩

theorem seg_append_split {T : Type} {h : Heap T} :
    ∀ (as₁ : List Nat) {vs₁ : List T} {as₂ : List Nat} {vs₂ : List T}
      {pr o pr' o' : Option Nat},
      as₁.length = vs₁.length →
      seg h pr o (as₁ ++ as₂) (vs₁ ++ vs₂) pr' o' →
      ∃ pm om, seg h pr o as₁ vs₁ pm om ∧ seg h pm om as₂ vs₂ pr' o' := by
  intro as₁
  induction as₁ with
  | nil =>
    intro vs₁ as₂ vs₂ pr o pr' o' hlen hs
    cases vs₁ with
    | nil => exact ⟨pr, o, ⟨rfl, rfl⟩, hs⟩
    | cons v vs => simp at hlen
  | cons a as ih =>
    intro vs₁ as₂ vs₂ pr o pr' o' hlen hs
    cases vs₁ with
    | nil => simp at hlen
    | cons v vs =>
      obtain ⟨ho, n, hn, hv, hp, hrest⟩ := hs
      obtain ⟨pm, om, hseg₁, hseg₂⟩ := ih (by simpa using hlen) hrest
      exact ⟨pm, om, ⟨ho, n, hn, hv, hp, hseg₁⟩, hseg₂⟩

theorem seg_getLast {T : Type} {h : Heap T} :
    ∀ (as : List Nat) {vs : List T} {pr o pr' o' : Option Nat},
      seg h pr o as vs pr' o' → (hne : as ≠ []) → pr' = some (as.getLast hne) := by
  intro as
  induction as with
  | nil => intro vs pr o pr' o' _ hne; exact absurd rfl hne
  | cons a as ih =>
    intro vs pr o pr' o' hs hne
    cases vs with
    | nil => exact absurd hs (by simp [seg])
    | cons v vs =>
      obtain ⟨-, n, -, -, -, hrest⟩ := hs
      cases as with
      | nil =>
        cases vs with
        | nil =>
          obtain ⟨hpr, -⟩ := hrest
          simpa [List.getLast] using hpr
        | cons w ws => exact absurd hrest (by simp [seg])
      | cons b bs =>
        rw [ih hrest (by simp)]
        simp [List.getLast]

theorem seg_update_entry {T : Type} {h : Heap T} (p' : Option Nat) :
    ∀ (as : List Nat) {vs : List T} {pr o pr' o' : Option Nat},
      as.Nodup → seg h pr o as vs pr' o' → (hne : as ≠ []) →
      ∃ a n, o = some a ∧ a ∈ as ∧ h a = some n ∧ n.prev = pr ∧
        seg (hupd h a { n with prev := p' }) p' o as vs pr' o' := by
  intro as
  cases as with
  | nil => intro vs pr o pr' o' _ _ hne; exact absurd rfl hne
  | cons a as =>
    intro vs pr o pr' o' hnd hs _
    cases vs with
    | nil => exact absurd hs (by simp [seg])
    | cons v vs =>
      obtain ⟨ho, n, hn, hv, hp, hrest⟩ := hs
      have hnotin : a ∉ as := (List.nodup_cons.mp hnd).1
      refine ⟨a, n, ho, List.mem_cons_self a as, hn, hp, ho,
        { n with prev := p' }, ?_, hv, rfl, ?_⟩
      · simp [hupd]
      · exact seg_congr as (fun x hx => by
          have hxa : x ≠ a := fun hq => hnotin (hq ▸ hx)
          simp [hupd, hxa]) hrest

theorem seg_update_exit {T : Type} {h : Heap T} (j' : Option Nat) :
    ∀ (as : List Nat) {vs : List T} {pr o : Option Nat} {t : Nat} {j : Option Nat},
      as.Nodup → as ≠ [] → seg h pr o as vs (some t) j →
      ∃ n, h t = some n ∧ n.next = j ∧
        seg (hupd h t { n with next := j' }) pr o as vs (some t) j' := by
  intro as
  induction as with
  | nil => intro vs pr o t j _ hne _; exact absurd rfl hne
  | cons a as ih =>
    intro vs pr o t j hnd hne hs
    cases vs with
    | nil => exact absurd hs (by simp [seg])
    | cons v vs =>
      obtain ⟨ho, n, hn, hv, hp, hrest⟩ := hs
      cases as with
      | nil =>
        cases vs with
        | cons w ws => exact absurd hrest (by simp [seg])
        | nil =>
          obtain ⟨hpr, hj⟩ := hrest
          have hta : t = a := Option.some.inj hpr
          subst hta
          refine ⟨n, hn, hj.symm, ho, { n with next := j' }, by simp [hupd], hv, hp, ?_⟩
          exact ⟨rfl, rfl⟩
      | cons b bs =>
        have hnotin : a ∉ b :: bs := (List.nodup_cons.mp hnd).1
        obtain ⟨nt, hnt, hjeq, hseg'⟩ := ih (List.nodup_cons.mp hnd).2 (by simp) hrest
        have htin : t ∈ b :: bs := by
          have hgl := seg_getLast (b :: bs) hrest (by simp)
          have ht : t = (b :: bs).getLast (by simp) := Option.some.inj hgl
          rw [ht]
          exact List.getLast_mem _
        have hat : a ≠ t := fun hq => hnotin (hq ▸ htin)
        refine ⟨nt, hnt, hjeq, ho, n, ?_, hv, hp, hseg'⟩
        simpa [hupd, hat] using hn

theorem seg_lookup {T : Type} {h : Heap T} :
    ∀ (as : List Nat) {vs : List T} {pr o pr' o' : Option Nat},
      seg h pr o as vs pr' o' → ∀ x ∈ as, ∃ n, h x = some n := by
  intro as
  induction as with
  | nil => intro vs pr o pr' o' _ x hx; exact absurd hx (by simp)
  | cons a as ih =>
    intro vs pr o pr' o' hs x hx
    cases vs with
    | nil => exact absurd hs (by simp [seg])
    | cons v vs =>
      obtain ⟨-, n, hn, -, -, hrest⟩ := hs
      rcases List.mem_cons.mp hx with hxa | hxs
      · exact ⟨n, hxa ▸ hn⟩
      · exact ih hrest x hxs

theorem seg_traverse {T : Type} {h : Heap T} :
    ∀ (as : List Nat) {vs : List T} {pr o pr' o' : Option Nat},
      seg h pr o as vs pr' o' → traverse h as.length o = vs := by
  intro as
  induction as with
  | nil =>
    intro vs pr o pr' o' hs
    cases vs with
    | nil => rfl
    | cons v vs => exact absurd hs (by simp [seg])
  | cons a as ih =>
    intro vs pr o pr' o' hs
    cases vs with
    | nil => exact absurd hs (by simp [seg])
    | cons v vs =>
      obtain ⟨ho, n, hn, hv, -, hrest⟩ := hs
      subst ho
      simp [traverse, hn, hv, ih hrest]

theorem seg_nexts {T : Type} {h : Heap T} :
    ∀ (as : List Nat) {vs : List T} {pr o pr' o' : Option Nat},
      seg h pr o as vs pr' o' → nexts h as.length o = some o' := by
  intro as
  induction as with
  | nil =>
    intro vs pr o pr' o' hs
    cases vs with
    | nil => simp [nexts, hs.2]
    | cons v vs => exact absurd hs (by simp [seg])
  | cons a as ih =>
    intro vs pr o pr' o' hs
    cases vs with
    | nil => exact absurd hs (by simp [seg])
    | cons v vs =>
      obtain ⟨ho, n, hn, -, -, hrest⟩ := hs
      subst ho
      simp [nexts, hn, ih hrest]

theorem toList_eq {T : Type} {s : St T} {d : Dq} {as : List Nat} {vs : List T}
    (w : Wf s d as vs) : toList s d = vs := by
  rw [toList, w.sz]
  exact seg_traverse as w.ch

theorem Wf_frame {T : Type} {s s' : St T} {e : Dq} {bs : List Nat} {ws : List T}
    (hag : ∀ x ∈ bs, s'.heap x = s.heap x) (hle : s.nextAddr ≤ s'.nextAddr)
    (w : Wf s e bs ws) : Wf s' e bs ws :=
  ⟨seg_congr bs hag w.ch, w.sz, w.nd,
    fun a ha => lt_of_lt_of_le (w.fresh a ha) hle⟩

end IpdDeque

namespace IpdDeque

theorem hupd_self {T : Type} (h : Heap T) (a : Nat) (n : Node T) :
    hupd h a n a = some n := by simp [hupd]

theorem hupd_ne {T : Type} (h : Heap T) {a x : Nat} (n : Node T) (hx : x ≠ a) :
    hupd h a n x = h x := by simp [hupd, hx]

theorem hupd_dom {T : Type} (h : Heap T) (a : Nat) (n : Node T) (x : Nat)
    (hx : h x ≠ none) : hupd h a n x ≠ none := by
  by_cases hxa : x = a
  · subst hxa; simp [hupd]
  · simpa [hupd, hxa] using hx

theorem Wf_empty {T : Type} (s : St T) : Wf s emptyDq [] [] :=
  ⟨⟨rfl, rfl⟩, rfl, List.nodup_nil, by simp⟩

theorem Wf_head_eq {T : Type} {s : St T} {d : Dq} {a : Nat} {as : List Nat}
    {v : T} {vs : List T} (w : Wf s d (a :: as) (v :: vs)) :
    d.head_ = some a := w.ch.1

theorem Wf_size_zero_iff {T : Type} {s : St T} {d : Dq} {as : List Nat}
    {vs : List T} (w : Wf s d as vs) : d.size_ = 0 ↔ as = [] := by
  rw [w.sz, List.length_eq_zero]

theorem Wf_tail_eq {T : Type} {s : St T} {d : Dq} {as : List Nat}
    {vs : List T} (w : Wf s d as vs) (hne : as ≠ []) :
    d.tail_ = some (as.getLast hne) := seg_getLast as w.ch hne

theorem seg_last_node {T : Type} {h : Heap T} :
    ∀ (as : List Nat) {vs : List T} {pr o pr' o' : Option Nat},
      seg h pr o as vs pr' o' → (hne : as ≠ []) →
      ∃ n, h (as.getLast hne) = some n ∧
        (∃ hv : vs ≠ [], n.val = vs.getLast hv) ∧ n.next = o' := by
  intro as
  induction as with
  | nil => intro vs pr o pr' o' _ hne; exact absurd rfl hne
  | cons a as ih =>
    intro vs pr o pr' o' hs hne
    cases vs with
    | nil => exact absurd hs (by simp [seg])
    | cons v vs =>
      obtain ⟨-, n, hn, hv, -, hrest⟩ := hs
      cases as with
      | nil =>
        cases vs with
        | cons w ws => exact absurd hrest (by simp [seg])
        | nil =>
          obtain ⟨-, ho'⟩ := hrest
          exact ⟨n, by simpa [List.getLast] using hn,
            ⟨by simp, by simpa [List.getLast] using hv⟩, ho'.symm⟩
      | cons b bs =>
        obtain ⟨m, hm, ⟨hvne, hmval⟩, hmnext⟩ := ih hrest (by simp)
        refine ⟨m, by simpa [List.getLast] using hm, ⟨by simp, ?_⟩, hmnext⟩
        rw [hmval]
        simp [List.getLast_cons, hvne]

theorem frontV_spec {T : Type} {s : St T} {d : Dq} {a : Nat} {as : List Nat}
    {v : T} {vs : List T} (w : Wf s d (a :: as) (v :: vs)) :
    frontV s d = some v := by
  obtain ⟨ho, n, hn, hv, -, -⟩ := w.ch
  simp [frontV, ho, hn, hv]

theorem backV_spec {T : Type} {s : St T} {d : Dq} {as : List Nat}
    {vs : List T} (w : Wf s d as vs) (hne : as ≠ []) (hvne : vs ≠ []) :
    backV s d = some (vs.getLast hvne) := by
  obtain ⟨n, hn, ⟨hv1, hval⟩, -⟩ := seg_last_node as w.ch hne
  have ht := Wf_tail_eq w hne
  simp [backV, ht, hn, hval]

theorem push_back_spec {T : Type} {s : St T} {d : Dq} {as : List Nat}
    {vs : List T} (w : Wf s d as vs) (v : T) :
    ∃ s' d', push_back s d v = some (s', d') ∧
      Wf s' d' (as ++ [s.nextAddr]) (vs ++ [v]) ∧
      s'.nextAddr = s.nextAddr + 1 ∧
      d'.size_ = d.size_ + 1 ∧
      (∀ x, x ∉ as → x ≠ s.nextAddr → s'.heap x = s.heap x) ∧
      (∀ x, s.heap x ≠ none → s'.heap x ≠ none) := by
  by_cases h0 : d.size_ = 0
  · have has : as = [] := (Wf_size_zero_iff w).mp h0
    subst has
    have hvs : vs = [] := List.length_eq_zero.mp (seg_length [] w.ch).symm
    subst hvs
    refine ⟨⟨hupd s.heap s.nextAddr ⟨v, none, none⟩, s.nextAddr + 1⟩,
      ⟨some s.nextAddr, some s.nextAddr, d.size_ + 1⟩,
      by simp [push_back, alloc, h0], ?_, rfl, rfl, ?_, ?_⟩
    · exact ⟨⟨rfl, ⟨v, none, none⟩, hupd_self _ _ _, rfl, rfl, rfl, rfl⟩,
        by simp [h0], by simp, by simp⟩
    · intro x _ hxf
      exact hupd_ne _ _ hxf
    · intro x hx
      exact hupd_dom _ _ _ _ hx
  · have hne : as ≠ [] := fun hq => h0 ((Wf_size_zero_iff w).mpr hq)
    have htail : d.tail_ = some (as.getLast hne) := Wf_tail_eq w hne
    generalize htdef : as.getLast hne = t at htail
    have htin : t ∈ as := htdef ▸ List.getLast_mem hne
    have htf : t ≠ s.nextAddr := Nat.ne_of_lt (w.fresh t htin)
    have hfin : s.nextAddr ∉ as := fun hq => Nat.lt_irrefl s.nextAddr (w.fresh _ hq)
    have seg0 : seg (hupd s.heap s.nextAddr ⟨v, none, none⟩)
        none d.head_ as vs (some t) none := by
      refine seg_congr as (fun x hx => ?_) (htail ▸ w.ch)
      exact hupd_ne _ _ (Nat.ne_of_lt (w.fresh x hx))
    obtain ⟨nt, hnt, -, hseg1⟩ := seg_update_exit (some s.nextAddr) as w.nd hne seg0
    have hfh1 : hupd (hupd s.heap s.nextAddr ⟨v, none, none⟩) t
        { nt with next := some s.nextAddr } s.nextAddr = some ⟨v, none, none⟩ := by
      rw [hupd_ne _ _ (Ne.symm htf), hupd_self]
    refine ⟨⟨hupd (hupd (hupd s.heap s.nextAddr ⟨v, none, none⟩) t
        { nt with next := some s.nextAddr }) s.nextAddr ⟨v, some t, none⟩,
        s.nextAddr + 1⟩,
      ⟨d.head_, some s.nextAddr, d.size_ + 1⟩, ?_, ?_, rfl, rfl, ?_, ?_⟩
    · simp [push_back, alloc, h0, htail, setNext, setPrev, hnt, hfh1]
    · refine ⟨?_, by show d.size_ + 1 = (as ++ [s.nextAddr]).length; simp [w.sz],
        by rw [List.nodup_append]
           exact ⟨w.nd, List.nodup_singleton _, by simpa using hfin⟩, ?_⟩
      · refine seg_append_of as (some t) (some s.nextAddr) ?_ ?_
        · exact seg_congr as (fun x hx => hupd_ne _ _
            (Nat.ne_of_lt (w.fresh x hx))) hseg1
        · exact ⟨rfl, ⟨v, some t, none⟩, hupd_self _ _ _, rfl, rfl, rfl, rfl⟩
      · intro x hx
        rcases List.mem_append.mp hx with hx1 | hx2
        · exact Nat.lt_succ_of_lt (w.fresh x hx1)
        · have hxeq : x = s.nextAddr := List.mem_singleton.mp hx2
          simp [hxeq]
    · intro x hxas hxf
      have hxt : x ≠ t := fun hq => hxas (hq ▸ htin)
      simp [hupd, hxf, hxt]
    · intro x hx
      exact hupd_dom _ _ _ _ (hupd_dom _ _ _ _ (hupd_dom _ _ _ _ hx))

end IpdDeque

namespace IpdDeque

theorem push_front_spec {T : Type} {s : St T} {d : Dq} {as : List Nat}
    {vs : List T} (w : Wf s d as vs) (v : T) :
    ∃ s' d', push_front s d v = some (s', d') ∧
      Wf s' d' (s.nextAddr :: as) (v :: vs) ∧
      s'.nextAddr = s.nextAddr + 1 ∧
      d'.size_ = d.size_ + 1 ∧
      (∀ x, x ∉ as → x ≠ s.nextAddr → s'.heap x = s.heap x) ∧
      (∀ x, s.heap x ≠ none → s'.heap x ≠ none) := by
  by_cases h0 : d.size_ = 0
  · have has : as = [] := (Wf_size_zero_iff w).mp h0
    subst has
    have hvs : vs = [] := List.length_eq_zero.mp (seg_length [] w.ch).symm
    subst hvs
    refine ⟨⟨hupd s.heap s.nextAddr ⟨v, none, none⟩, s.nextAddr + 1⟩,
      ⟨some s.nextAddr, some s.nextAddr, d.size_ + 1⟩,
      by simp [push_front, alloc, h0], ?_, rfl, rfl, ?_, ?_⟩
    · exact ⟨⟨rfl, ⟨v, none, none⟩, hupd_self _ _ _, rfl, rfl, rfl, rfl⟩,
        by simp [h0], by simp, by simp⟩
    · intro x _ hxf
      exact hupd_ne _ _ hxf
    · intro x hx
      exact hupd_dom _ _ _ _ hx
  · have hne : as ≠ [] := fun hq => h0 ((Wf_size_zero_iff w).mpr hq)
    have hfin : s.nextAddr ∉ as := fun hq => Nat.lt_irrefl s.nextAddr (w.fresh _ hq)
    have seg0 : seg (hupd s.heap s.nextAddr ⟨v, none, none⟩)
        none d.head_ as vs d.tail_ none := by
      refine seg_congr as (fun x hx => ?_) w.ch
      exact hupd_ne _ _ (Nat.ne_of_lt (w.fresh x hx))
    obtain ⟨a, n, ha, hain, hna, -, hseg1⟩ :=
      seg_update_entry (some s.nextAddr) as w.nd seg0 hne
    have haf : a ≠ s.nextAddr := Nat.ne_of_lt (w.fresh a hain)
    have hfh1 : hupd (hupd s.heap s.nextAddr ⟨v, none, none⟩) a
        { n with prev := some s.nextAddr } s.nextAddr = some ⟨v, none, none⟩ := by
      rw [hupd_ne _ _ (Ne.symm haf), hupd_self]
    refine ⟨⟨hupd (hupd (hupd s.heap s.nextAddr ⟨v, none, none⟩) a
        { n with prev := some s.nextAddr }) s.nextAddr ⟨v, none, d.head_⟩,
        s.nextAddr + 1⟩,
      ⟨some s.nextAddr, d.tail_, d.size_ + 1⟩, ?_, ?_, rfl, rfl, ?_, ?_⟩
    · simp [push_front, alloc, h0, setPrev, setNext, ha, hna, hfh1]
    · refine ⟨?_, by show d.size_ + 1 = (s.nextAddr :: as).length; simp [w.sz],
        by simp [w.nd, hfin], ?_⟩
      · refine ⟨rfl, ⟨v, none, d.head_⟩, hupd_self _ _ _, rfl, rfl, ?_⟩
        exact seg_congr as (fun x hx => hupd_ne _ _
          (Nat.ne_of_lt (w.fresh x hx))) hseg1
      · intro x hx
        rcases List.mem_cons.mp hx with hx1 | hx2
        · simp [hx1]
        · exact Nat.lt_succ_of_lt (w.fresh x hx2)
    · intro x hxas hxf
      have hxa : x ≠ a := fun hq => hxas (hq ▸ hain)
      simp [hupd, hxf, hxa]
    · intro x hx
      exact hupd_dom _ _ _ _ (hupd_dom _ _ _ _ (hupd_dom _ _ _ _ hx))

theorem pop_front_spec {T : Type} {s : St T} {d : Dq} {a : Nat} {as : List Nat}
    {v : T} {vs : List T} (w : Wf s d (a :: as) (v :: vs)) :
    ∃ s' d', pop_front s d = some (s', d') ∧ Wf s' d' as vs ∧
      s'.nextAddr = s.nextAddr ∧ d'.size_ = d.size_ - 1 ∧
      (∀ x, x ∉ a :: as → s'.heap x = s.heap x) ∧
      s'.heap a = s.heap a ∧
      (∀ x, s.heap x ≠ none → s'.heap x ≠ none) := by
  have hsz : d.size_ = as.length + 1 := by simpa using w.sz
  have h0 : d.size_ ≠ 0 := by omega
  obtain ⟨ha, n, hn, hv, hprev, hrest⟩ := w.ch
  cases as with
  | nil =>
    have hvs : vs = [] := by
      have := seg_length (a :: ([] : List Nat)) w.ch
      simpa using this.symm
    subst hvs
    have htail : d.tail_ = some a := by
      simpa [List.getLast] using Wf_tail_eq w (by simp)
    refine ⟨s, ⟨none, none, d.size_ - 1⟩, ?_, ?_, rfl, rfl, ?_, rfl, ?_⟩
    · simp [pop_front, h0, ha, htail]
    · exact ⟨⟨rfl, rfl⟩, by simp [hsz], List.nodup_nil, by simp⟩
    · intro x _; rfl
    · intro x hx; exact hx
  | cons b bs =>
    cases vs with
    | nil =>
      have := seg_length (b :: bs) hrest
      simp at this
    | cons v₂ vs₂ =>
      have hanotin : a ∉ b :: bs := (List.nodup_cons.mp w.nd).1
      have hnd₂ : (b :: bs).Nodup := (List.nodup_cons.mp w.nd).2
      have htne : d.head_ ≠ d.tail_ := by
        have htl : d.tail_ = some ((b :: bs).getLast (by simp)) := by
          have := Wf_tail_eq w (by simp)
          rwa [List.getLast_cons (by simp)] at this
        rw [ha, htl]
        intro hq
        exact hanotin (Option.some.inj hq ▸ List.getLast_mem (by simp))
      obtain ⟨b', nb, hb', hbin, hnb, -, hseg1⟩ :=
        seg_update_entry none (b :: bs) hnd₂ hrest (by simp)
      have hnext : n.next = some b := hrest.1
      have hbb : b' = b := by
        rw [hnext] at hb'
        exact (Option.some.inj hb').symm
      subst hbb
      have htne' : some a ≠ d.tail_ := by rw [← ha]; exact htne
      refine ⟨⟨hupd s.heap b' { nb with prev := none }, s.nextAddr⟩,
        ⟨some b', d.tail_, d.size_ - 1⟩, ?_, ?_, rfl, rfl, ?_, ?_, ?_⟩
      · simp [pop_front, h0, htne', getNext, setPrev, ha, hn, hnext, hnb]
      · refine ⟨?_, by simp [hsz], hnd₂, ?_⟩
        · rw [hnext] at hseg1
          exact hseg1
        · intro x hx
          exact w.fresh x (List.mem_cons_of_mem a hx)
      · intro x hx
        have hxb : x ≠ b' := by
          intro hq
          subst hq
          exact hx (List.mem_cons_of_mem a hbin)
        exact hupd_ne _ _ hxb
      · have hab : a ≠ b' := fun hq => hanotin (hq ▸ hbin)
        exact hupd_ne _ _ hab
      · intro x hx
        exact hupd_dom _ _ _ _ hx

end IpdDeque

namespace IpdDeque

theorem pop_back_spec {T : Type} {s : St T} {d : Dq} {t : Nat} {as : List Nat}
    {v : T} {vs : List T} (hlen : as.length = vs.length)
    (w : Wf s d (as ++ [t]) (vs ++ [v])) :
    ∃ s' d', pop_back s d = some (s', d') ∧ Wf s' d' as vs ∧
      s'.nextAddr = s.nextAddr ∧ d'.size_ = d.size_ - 1 ∧
      (∀ x, x ∉ as ++ [t] → s'.heap x = s.heap x) ∧
      s'.heap t = s.heap t ∧
      (∀ x, s.heap x ≠ none → s'.heap x ≠ none) := by
  have hsz : d.size_ = as.length + 1 := by simpa using w.sz
  have h0 : d.size_ ≠ 0 := by omega
  obtain ⟨pm, om, seg1, seg2⟩ := seg_append_split as hlen w.ch
  obtain ⟨hom, nt, hnt, hvt, hprevt, htl, hnextt⟩ := seg2
  have htnotin : t ∉ as := by
    intro hq
    exact (List.nodup_append.mp w.nd).2.2 hq (by simp)
  cases as with
  | nil =>
    have hvs : vs = [] := List.length_eq_zero.mp hlen.symm
    subst hvs
    obtain ⟨hpm, hom'⟩ := seg1
    have hht : d.head_ = d.tail_ := by rw [← hom', hom, htl]
    refine ⟨s, ⟨none, none, d.size_ - 1⟩, ?_, ?_, rfl, rfl, ?_, rfl, ?_⟩
    · simp [pop_back, h0, hht]
    · exact ⟨⟨rfl, rfl⟩, by simp [hsz], List.nodup_nil, by simp⟩
    · intro x _; rfl
    · intro x hx; exact hx
  | cons a as₂ =>
    cases vs with
    | nil => simp at hlen
    | cons v₂ vs₂ =>
      have hnd₁ : (a :: as₂).Nodup := (List.nodup_append.mp w.nd).1
      have hhead : d.head_ = some a := by
        have := w.ch
        exact this.1
      have hat : a ≠ t := by
        intro hq
        exact htnotin (hq ▸ List.mem_cons_self a as₂)
      have htne' : d.head_ ≠ d.tail_ := by
        rw [hhead, htl]
        intro hq
        exact hat (Option.some.inj hq)
      have hpm : pm = some ((a :: as₂).getLast (by simp)) :=
        seg_getLast (a :: as₂) seg1 (by simp)
      generalize hp : (a :: as₂).getLast (by simp) = p at hpm
      have hpin : p ∈ a :: as₂ := hp ▸ List.getLast_mem (by simp)
      rw [hpm] at seg1
      obtain ⟨np, hnp, hnpnext, hseg1'⟩ :=
        seg_update_exit none (a :: as₂) hnd₁ (by simp) seg1
      have hpt : p ≠ t := fun hq => htnotin (hq ▸ hpin)
      have htne2 : ¬ d.head_ = some t := by rw [← htl]; exact htne'
      refine ⟨⟨hupd s.heap p { np with next := none }, s.nextAddr⟩,
        ⟨d.head_, pm, d.size_ - 1⟩, ?_, ?_, rfl, rfl, ?_, ?_, ?_⟩
      · simp [pop_back, h0, htne2, getPrev, setNext, htl, hnt, hprevt, hpm, hnp]
      · refine ⟨by rw [hpm]; exact hseg1', by simp [hsz], hnd₁, ?_⟩
        intro x hx
        exact w.fresh x (List.mem_append_left _ hx)
      · intro x hx
        have hxp : x ≠ p := by
          intro hq
          subst hq
          exact hx (List.mem_append_left _ hpin)
        exact hupd_ne _ _ hxp
      · exact hupd_ne _ _ (Ne.symm hpt)
      · intro x hx
        exact hupd_dom _ _ _ _ hx

end IpdDeque

namespace IpdDeque

theorem clearLoop_spec {T : Type} :
    ∀ (as : List Nat) {vs : List T} {s : St T} {d : Dq}, Wf s d as vs →
      ∃ s', clearLoop d.size_ s d = some (s', ⟨none, none, 0⟩) ∧
        s'.nextAddr = s.nextAddr ∧
        (∀ x, x ∉ as → s'.heap x = s.heap x) ∧
        (∀ x, s.heap x ≠ none → s'.heap x ≠ none) := by
  intro as
  induction as with
  | nil =>
    intro vs s d w
    have hsz : d.size_ = 0 := by simpa using w.sz
    cases vs with
    | cons v vs => exact absurd w.ch (by simp [seg])
    | nil =>
      obtain ⟨htl, hhd⟩ := w.ch
      have hd : d = ⟨none, none, 0⟩ := by
        cases d
        simp_all
      subst hd
      exact ⟨s, by simp [clearLoop], rfl, fun x _ => rfl, fun x hx => hx⟩
  | cons a as ih =>
    intro vs s d w
    cases vs with
    | nil => exact absurd w.ch (by simp [seg])
    | cons v vs₂ =>
      have hsz : d.size_ = as.length + 1 := by simpa using w.sz
      obtain ⟨s1, d1, hrun, w1, hna, hs1, hfp, ha, hdom⟩ := pop_front_spec w
      have hd1sz : d1.size_ = as.length := w1.sz
      obtain ⟨s', hrun', hna', hfp', hdom'⟩ := ih w1
      refine ⟨s', ?_, by rw [hna', hna], ?_, ?_⟩
      · rw [hsz]
        simp only [clearLoop, hsz, Nat.succ_ne_zero, if_false, hrun]
        rw [← hd1sz] at *
        simpa using hrun'
      · intro x hx
        rw [hfp' x (fun hq => hx (List.mem_cons_of_mem a hq)), hfp x hx]
      · intro x hx
        exact hdom' x (hdom x hx)

theorem clear_spec {T : Type} {s : St T} {d : Dq} {as : List Nat} {vs : List T}
    (w : Wf s d as vs) :
    ∃ s', clear s d = some (s', ⟨none, none, 0⟩) ∧
      s'.nextAddr = s.nextAddr ∧
      (∀ x, x ∉ as → s'.heap x = s.heap x) ∧
      (∀ x, s.heap x ≠ none → s'.heap x ≠ none) := clearLoop_spec as w

theorem copyLoop_spec {T : Type} :
    ∀ (cs : List Nat) {cvs : List T} {cp curr cq : Option Nat} {s : St T}
      {d : Dq} {ds : List Nat} {dvs : List T},
      seg s.heap cp curr cs cvs cq none →
      (∀ x ∈ cs, x < s.nextAddr) →
      Wf s d ds dvs → List.Disjoint ds cs →
      ∃ s' d' ds',
        copyLoop cs.length s d curr = some (s', d') ∧
        Wf s' d' (ds ++ ds') (dvs ++ cvs) ∧
        (∀ x ∈ ds', s.nextAddr ≤ x) ∧
        s.nextAddr ≤ s'.nextAddr ∧
        (∀ x, x ∉ ds → x < s.nextAddr → s'.heap x = s.heap x) ∧
        (∀ x, s.heap x ≠ none → s'.heap x ≠ none) := by
  intro cs
  induction cs with
  | nil =>
    intro cvs cp curr cq s d ds dvs hseg hb w hdisj
    cases cvs with
    | cons c cvs => exact absurd hseg (by simp [seg])
    | nil =>
      obtain ⟨-, hcurr⟩ := hseg
      refine ⟨s, d, [], ?_, by simpa using w, by simp, le_refl _,
        fun x _ _ => rfl, fun x hx => hx⟩
      rw [← hcurr]
      simp [copyLoop]
  | cons a cs₂ ih =>
    intro cvs cp curr cq s d ds dvs hseg hb w hdisj
    cases cvs with
    | nil => exact absurd hseg (by simp [seg])
    | cons v cvs₂ =>
      obtain ⟨hcurr, n, hn, hval, hprev, hrest⟩ := hseg
      have hain : a ∈ a :: cs₂ := List.mem_cons_self a cs₂
      have haf : a < s.nextAddr := hb a hain
      have hads : a ∉ ds := fun hq => hdisj hq hain
      obtain ⟨s1, d1, hrun, w1, hna1, hsz1, hfp1, hdom1⟩ := push_back_spec w n.val
      have hs1a : s1.heap a = s.heap a := hfp1 a hads (Nat.ne_of_lt haf)
      have hseg2 : seg s1.heap (some a) n.next cs₂ cvs₂ cq none := by
        refine seg_congr cs₂ (fun x hx => ?_) hrest
        have hxcs : x ∈ a :: cs₂ := List.mem_cons_of_mem a hx
        exact hfp1 x (fun hq => hdisj hq hxcs) (Nat.ne_of_lt (hb x hxcs))
      have hb2 : ∀ x ∈ cs₂, x < s1.nextAddr := by
        intro x hx
        rw [hna1]
        exact Nat.lt_succ_of_lt (hb x (List.mem_cons_of_mem a hx))
      have hdisj2 : List.Disjoint (ds ++ [s.nextAddr]) cs₂ := by
        intro x hx hx2
        rcases List.mem_append.mp hx with hx1 | hxf
        · exact hdisj hx1 (List.mem_cons_of_mem a hx2)
        · have hxeq : x = s.nextAddr := List.mem_singleton.mp hxf
          exact Nat.lt_irrefl x (hxeq ▸ hb x (List.mem_cons_of_mem a hx2))
      obtain ⟨s', d', ds'', hrun', w', hfr', hna', hfp', hdom'⟩ :=
        ih hseg2 hb2 w1 hdisj2
      refine ⟨s', d', s.nextAddr :: ds'', ?_, ?_, ?_, ?_, ?_, ?_⟩
      · show copyLoop (cs₂.length + 1) s d curr = some (s', d')
        rw [hcurr]
        simp only [copyLoop, hn, hrun, hs1a, Option.bind_eq_bind,
          Option.some_bind, Option.pure_def]
        exact hrun'
      · have hre : ds ++ s.nextAddr :: ds'' = (ds ++ [s.nextAddr]) ++ ds'' := by
          simp
        have hre2 : dvs ++ v :: cvs₂ = (dvs ++ [v]) ++ cvs₂ := by simp
        rw [hre, hre2, ← hval]
        exact w'
      · intro x hx
        rcases List.mem_cons.mp hx with hx1 | hx2
        · exact le_of_eq hx1.symm
        · have := hfr' x hx2
          omega
      · omega
      · intro x hxds hxlt
        rw [hfp' x ?_ ?_, hfp1 x hxds (Nat.ne_of_lt hxlt)]
        · intro hq
          rcases List.mem_append.mp hq with hq1 | hq2
          · exact hxds hq1
          · exact Nat.ne_of_lt hxlt (List.mem_singleton.mp hq2)
        · omega
      · intro x hx
        exact hdom' x (hdom1 x hx)

end IpdDeque

namespace IpdDeque

theorem spliceLoop_spec {T : Type} :
    ∀ (bs : List Nat) {bvs : List T} {s : St T} {a b : Dq} {as : List Nat}
      {avs : List T},
      Wf s a as avs → Wf s b bs bvs → List.Disjoint as bs → a.size_ ≠ 0 →
      ∃ s' a' b' as', spliceLoop bs.length s a b = some (s', a', b') ∧
        Wf s' a' as' (avs ++ bvs) ∧ b' = ⟨none, none, 0⟩ ∧
        a'.size_ = a.size_ + b.size_ := by
  intro bs
  induction bs with
  | nil =>
    intro bvs s a b as avs wa wb _ _
    have hbsz : b.size_ = 0 := by simpa using wb.sz
    cases bvs with
    | cons v bvs => exact absurd wb.ch (by simp [seg])
    | nil =>
      obtain ⟨htl, hhd⟩ := wb.ch
      have hb : b = ⟨none, none, 0⟩ := by
        cases b
        simp_all
      subst hb
      exact ⟨s, a, ⟨none, none, 0⟩, as, by simp [spliceLoop],
        by simpa using wa, rfl, by simp⟩
  | cons bb bs₂ ih =>
    intro bvs s a b as avs wa wb hdisj ha0
    cases bvs with
    | nil => exact absurd wb.ch (by simp [seg])
    | cons bv bvs₂ =>
      have hbsz : b.size_ = bs₂.length + 1 := by simpa using wb.sz
      have hb0 : b.size_ ≠ 0 := by omega
      have hc : ¬(b.size_ = 0 ∨ a.size_ = 0) := by
        intro hq
        rcases hq with hq | hq
        · exact hb0 hq
        · exact ha0 hq
      have hfv : frontV s b = some bv := frontV_spec wb
      obtain ⟨s1, a1, hpb, wa1, hna1, hsa1, hfp1, -⟩ := push_back_spec wa bv
      have hfnb : s.nextAddr ∉ bb :: bs₂ :=
        fun hq => Nat.lt_irrefl s.nextAddr (wb.fresh _ hq)
      have wb1 : Wf s1 b (bb :: bs₂) (bv :: bvs₂) := by
        refine Wf_frame (fun x hx => ?_) (by omega) wb
        have hxa : x ∉ as := fun hq => hdisj hq hx
        exact hfp1 x hxa (Nat.ne_of_lt (wb.fresh x hx))
      obtain ⟨s2, b1, hpf, wb2, hna2, hsb2, hfp2, -, -⟩ := pop_front_spec wb1
      have wa2 : Wf s2 a1 (as ++ [s.nextAddr]) (avs ++ [bv]) := by
        refine Wf_frame (fun x hx => ?_) (by omega) wa1
        refine hfp2 x (fun hq => ?_)
        rcases List.mem_append.mp hx with hx1 | hx2
        · exact hdisj hx1 hq
        · exact hfnb (List.mem_singleton.mp hx2 ▸ hq)
      have hdisj2 : List.Disjoint (as ++ [s.nextAddr]) bs₂ := by
        intro x hx hx2
        rcases List.mem_append.mp hx with hx1 | hx2'
        · exact hdisj hx1 (List.mem_cons_of_mem bb hx2)
        · exact hfnb (List.mem_singleton.mp hx2' ▸ List.mem_cons_of_mem bb hx2)
      have ha1sz : a1.size_ ≠ 0 := by omega
      obtain ⟨s', a', b', as', hrun', wa', hb', hsz'⟩ :=
        ih wa2 wb2 hdisj2 ha1sz
      refine ⟨s', a', b', as', ?_, ?_, hb', ?_⟩
      · show spliceLoop (bs₂.length + 1) s a b = some (s', a', b')
        simp only [spliceLoop, if_neg hc, hfv, hpb, hpf, Option.bind_eq_bind,
          Option.some_bind, Option.pure_def]
        exact hrun'
      · rwa [List.append_assoc, List.singleton_append] at wa'
      · rw [hsz', hsa1, hsb2]
        omega

theorem splice_spec {T : Type} {s : St T} {a b : Dq} {as bs : List Nat}
    {avs bvs : List T} (wa : Wf s a as avs) (wb : Wf s b bs bvs)
    (hdisj : List.Disjoint as bs) :
    ∃ s' a' b' as', splice s a b = some (s', a', b') ∧
      Wf s' a' as' (avs ++ bvs) ∧ Wf s' b' [] [] ∧
      b' = ⟨none, none, 0⟩ ∧ a'.size_ = a.size_ + b.size_ := by
  by_cases hb0 : b.size_ = 0
  · have hbs : bs = [] := (Wf_size_zero_iff wb).mp hb0
    subst hbs
    cases bvs with
    | cons v bvs => exact absurd wb.ch (by simp [seg])
    | nil =>
      obtain ⟨htl, hhd⟩ := wb.ch
      have hbeq : b = ⟨none, none, 0⟩ := by
        cases b
        simp_all
      refine ⟨s, a, b, as, by simp [splice, hb0], by simpa using wa, ?_, hbeq, by omega⟩
      rw [hbeq]
      exact Wf_empty s
  · by_cases ha0 : a.size_ = 0
    · have has : as = [] := (Wf_size_zero_iff wa).mp ha0
      subst has
      cases avs with
      | cons v avs => exact absurd wa.ch (by simp [seg])
      | nil =>
        refine ⟨s, ⟨b.head_, b.tail_, b.size_⟩, ⟨none, none, 0⟩, bs,
          by simp [splice, hb0, ha0], ?_, Wf_empty s, rfl, by simp [ha0]⟩
        exact ⟨wb.ch, wb.sz, wb.nd, wb.fresh⟩
    · obtain ⟨s', a', b', as', hrun, wa', hb', hsz'⟩ :=
        spliceLoop_spec bs wa wb hdisj ha0
      have hbfuel : b.size_ = bs.length := wb.sz
      refine ⟨s', { a' with size_ := a'.size_ + b'.size_ }, b', as', ?_, ?_, ?_, hb', ?_⟩
      · simp only [splice, if_neg hb0, if_neg ha0]
        rw [hbfuel, hrun]
        rfl
      · have hsum : a'.size_ + b'.size_ = a'.size_ := by simp [hb']
        rw [hsum]
        exact wa'
      · rw [hb']
        exact Wf_empty s'
      · rw [hb']
        simpa using hsz'

theorem spliceSelfLoop_none {T : Type} :
    ∀ (fuel : Nat) {s : St T} {d : Dq} {as : List Nat} {vs : List T},
      Wf s d as vs → as ≠ [] → spliceSelfLoop fuel s d = none := by
  intro fuel
  induction fuel with
  | zero =>
    intro s d as vs w hne
    have h0 : d.size_ ≠ 0 := fun hq => hne ((Wf_size_zero_iff w).mp hq)
    simp [spliceSelfLoop, h0]
  | succ fuel ih =>
    intro s d as vs w hne
    have h0 : d.size_ ≠ 0 := fun hq => hne ((Wf_size_zero_iff w).mp hq)
    cases as with
    | nil => exact absurd rfl hne
    | cons a as₂ =>
      cases vs with
      | nil => exact absurd w.ch (by simp [seg])
      | cons v vs₂ =>
        have hfv : frontV s d = some v := frontV_spec w
        obtain ⟨s1, d1, hpb, w1, -, -, -, -⟩ := push_back_spec w v
        have hshape : a :: as₂ ++ [s.nextAddr] = a :: (as₂ ++ [s.nextAddr]) := by
          simp
        rw [hshape] at w1
        have hvshape : v :: vs₂ ++ [v] = v :: (vs₂ ++ [v]) := by simp
        rw [hvshape] at w1
        obtain ⟨s2, d2, hpf, w2, -, -, -, -, -⟩ := pop_front_spec w1
        have hrec : spliceSelfLoop fuel s2 d2 = none :=
          ih w2 (by simp)
        simp only [spliceSelfLoop, if_neg h0, hfv, hpb, hpf,
          Option.bind_eq_bind, Option.some_bind, Option.pure_def]
        exact hrec

theorem spliceSelf_empty {T : Type} (fuel : Nat) (s : St T) {d : Dq}
    (h0 : d.size_ = 0) : spliceSelf fuel s d = some (s, d) := by
  simp [spliceSelf, h0]

theorem spliceSelf_none {T : Type} (fuel : Nat) {s : St T} {d : Dq}
    {as : List Nat} {vs : List T} (w : Wf s d as vs) (hne : as ≠ []) :
    spliceSelf fuel s d = none := by
  have h0 : d.size_ ≠ 0 := fun hq => hne ((Wf_size_zero_iff w).mp hq)
  simp [spliceSelf, h0, spliceSelfLoop_none fuel w hne]

end IpdDeque

namespace IpdDeque

theorem applyM_spec {T : Type} {s : St T} {d : Dq} {as : List Nat}
    {vs : List T} (w : Wf s d as vs) (op : MOp T) :
    ∃ s' d' as' vs', applyM s d op = some (s', d') ∧ Wf s' d' as' vs' ∧
      s.nextAddr ≤ s'.nextAddr ∧
      (∀ x, x ∉ as → x < s.nextAddr → s'.heap x = s.heap x) ∧
      (∀ x ∈ as', x ∈ as ∨ s.nextAddr ≤ x) ∧
      d'.size_ = mSize op d.size_ := by
  cases op with
  | pushF v =>
    obtain ⟨s', d', hrun, w', hna, hsz, hfp, -⟩ := push_front_spec w v
    refine ⟨s', d', _, _, hrun, w', by omega, ?_, ?_, hsz⟩
    · intro x hx hlt
      exact hfp x hx (Nat.ne_of_lt hlt)
    · intro x hx
      rcases List.mem_cons.mp hx with hx1 | hx2
      · exact Or.inr (le_of_eq hx1.symm)
      · exact Or.inl hx2
  | pushB v =>
    obtain ⟨s', d', hrun, w', hna, hsz, hfp, -⟩ := push_back_spec w v
    refine ⟨s', d', _, _, hrun, w', by omega, ?_, ?_, hsz⟩
    · intro x hx hlt
      exact hfp x hx (Nat.ne_of_lt hlt)
    · intro x hx
      rcases List.mem_append.mp hx with hx1 | hx2
      · exact Or.inl hx1
      · exact Or.inr (le_of_eq (List.mem_singleton.mp hx2).symm)
  | popF =>
    cases as with
    | nil =>
      cases vs with
      | cons v vs => exact absurd w.ch (by simp [seg])
      | nil =>
        have h0 : d.size_ = 0 := by simpa using w.sz
        refine ⟨s, d, [], [], by simp [applyM, pop_front, h0], w, le_refl _,
          fun x _ _ => rfl, by simp, by simp [mSize, h0]⟩
    | cons a as₂ =>
      cases vs with
      | nil => exact absurd w.ch (by simp [seg])
      | cons v vs₂ =>
        obtain ⟨s', d', hrun, w', hna, hsz, hfp, -, -⟩ := pop_front_spec w
        refine ⟨s', d', _, _, hrun, w', by omega, ?_, ?_, hsz⟩
        · intro x hx _
          exact hfp x hx
        · intro x hx
          exact Or.inl (List.mem_cons_of_mem a hx)
  | popB =>
    rcases List.eq_nil_or_concat as with hnil | ⟨as₂, t, hcat⟩
    · subst hnil
      cases vs with
      | cons v vs => exact absurd w.ch (by simp [seg])
      | nil =>
        have h0 : d.size_ = 0 := by simpa using w.sz
        refine ⟨s, d, [], [], by simp [applyM, pop_back, h0], w, le_refl _,
          fun x _ _ => rfl, by simp, by simp [mSize, h0]⟩
    · rw [List.concat_eq_append] at hcat
      subst hcat
      rcases List.eq_nil_or_concat vs with hnil | ⟨vs₂, v, hcat2⟩
      · subst hnil
        have := seg_length (as₂ ++ [t]) w.ch
        simp at this
      · rw [List.concat_eq_append] at hcat2
        subst hcat2
        have hlen : as₂.length = vs₂.length := by
          have := seg_length (as₂ ++ [t]) w.ch
          simpa using this
        obtain ⟨s', d', hrun, w', hna, hsz, hfp, -, -⟩ := pop_back_spec hlen w
        refine ⟨s', d', _, _, hrun, w', by omega, ?_, ?_, hsz⟩
        · intro x hx _
          exact hfp x hx
        · intro x hx
          exact Or.inl (List.mem_append_left _ hx)
  | clearM =>
    obtain ⟨s', hrun, hna, hfp, -⟩ := clear_spec w
    refine ⟨s', ⟨none, none, 0⟩, [], [], hrun, Wf_empty s', by omega, ?_,
      by simp, by simp [mSize]⟩
    intro x hx _
    exact hfp x hx

theorem runM_spec {T : Type} :
    ∀ (ops : List (MOp T)) {s : St T} {d : Dq} {as : List Nat} {vs : List T},
      Wf s d as vs →
      ∃ s' d' as' vs', runM ops s d = some (s', d') ∧ Wf s' d' as' vs' ∧
        s.nextAddr ≤ s'.nextAddr ∧
        (∀ x, x ∉ as → x < s.nextAddr → s'.heap x = s.heap x) ∧
        (∀ x ∈ as', x ∈ as ∨ s.nextAddr ≤ x) := by
  intro ops
  induction ops with
  | nil =>
    intro s d as vs w
    exact ⟨s, d, as, vs, rfl, w, le_refl _, fun x _ _ => rfl,
      fun x hx => Or.inl hx⟩
  | cons op ops ih =>
    intro s d as vs w
    obtain ⟨s1, d1, as1, vs1, hrun1, w1, hna1, hfp1, hmem1, -⟩ :=
      applyM_spec w op
    obtain ⟨s', d', as', vs', hrun', w', hna', hfp', hmem'⟩ := ih w1
    refine ⟨s', d', as', vs', ?_, w', by omega, ?_, ?_⟩
    · simp only [runM, hrun1, Option.bind_eq_bind, Option.some_bind]
      exact hrun'
    · intro x hx hlt
      rw [hfp' x ?_ ?_, hfp1 x hx hlt]
      · intro hq
        rcases hmem1 x hq with hq1 | hq2
        · exact hx hq1
        · omega
      · omega
    · intro x hx
      rcases hmem' x hx with hx1 | hx2
      · rcases hmem1 x hx1 with hq1 | hq2
        · exact Or.inl hq1
        · exact Or.inr hq2
      · exact Or.inr (by omega)

theorem runM_frame {T : Type} {s : St T} {d e : Dq} {as vs bs ws}
    (wd : Wf s d as vs) (we : Wf s e bs ws)
    (hdisj : List.Disjoint bs as) (ops : List (MOp T)) :
    ∃ s' d', runM ops s d = some (s', d') ∧ Wf s' e bs ws ∧
      toList s' e = toList s e ∧ wf s' d' := by
  obtain ⟨s', d', as', vs', hrun, w', hna, hfp, -⟩ := runM_spec ops wd
  have we' : Wf s' e bs ws := by
    refine Wf_frame (fun x hx => ?_) hna we
    exact hfp x (fun hq => hdisj hx hq) (we.fresh x hx)
  exact ⟨s', d', hrun, we', by rw [toList_eq we', toList_eq we],
    ⟨as', vs', w'⟩⟩

theorem copyCtor_spec {T : Type} {s : St T} {src : Dq} {as : List Nat}
    {vs : List T} (w : Wf s src as vs) :
    ∃ s' d' ds', copyCtor s src = some (s', d') ∧ Wf s' d' ds' vs ∧
      Wf s' src as vs ∧ (∀ x ∈ ds', s.nextAddr ≤ x) ∧
      s.nextAddr ≤ s'.nextAddr ∧
      (∀ x, x < s.nextAddr → s'.heap x = s.heap x) := by
  obtain ⟨s', d', ds', hrun, w', hfr, hna, hfp, -⟩ :=
    copyLoop_spec as w.ch w.fresh (Wf_empty s) (by simp [List.Disjoint])
  have hfp' : ∀ x, x < s.nextAddr → s'.heap x = s.heap x := fun x hx =>
    hfp x (by simp) hx
  refine ⟨s', d', ds', ?_, by simpa using w', ?_, hfr, hna, hfp'⟩
  · show copyLoop src.size_ s ⟨none, none, 0⟩ src.head_ = some (s', d')
    rw [w.sz]
    exact hrun
  · exact Wf_frame (fun x hx => hfp' x (w.fresh x hx)) hna w

theorem assign_spec {T : Type} {s : St T} {dst src : Dq} {dsa as : List Nat}
    {dvs vs : List T} (wd : Wf s dst dsa dvs) (wsrc : Wf s src as vs)
    (hdisj : List.Disjoint dsa as) :
    ∃ s' d' ds', assign s dst src = some (s', d') ∧ Wf s' d' ds' vs ∧
      Wf s' src as vs ∧ (∀ x ∈ ds', s.nextAddr ≤ x) ∧
      s.nextAddr ≤ s'.nextAddr ∧
      (∀ x, x ∉ dsa → x < s.nextAddr → s'.heap x = s.heap x) := by
  obtain ⟨s1, hrun1, hna1, hfp1, -⟩ := clear_spec wd
  have wsrc1 : Wf s1 src as vs := by
    refine Wf_frame (fun x hx => ?_) (le_of_eq hna1.symm) wsrc
    exact hfp1 x (fun hq => hdisj hq hx)
  have hb1 : ∀ x ∈ as, x < s1.nextAddr := by
    intro x hx
    rw [hna1]
    exact wsrc.fresh x hx
  obtain ⟨s', d', ds', hrun2, w', hfr, hna2, hfp2, -⟩ :=
    copyLoop_spec as wsrc1.ch hb1 (Wf_empty s1) (by simp [List.Disjoint])
  have hfp2' : ∀ x, x < s.nextAddr → s'.heap x = s1.heap x := fun x hx =>
    hfp2 x (by simp) (by omega)
  refine ⟨s', d', ds', ?_, by simpa using w', ?_, ?_, by omega, ?_⟩
  · show (do
      let (s2, d2) ← clear s dst
      copyLoop src.size_ s2 d2 src.head_) = some (s', d')
    rw [hrun1]
    simp only [Option.bind_eq_bind, Option.some_bind]
    rw [wsrc.sz]
    exact hrun2
  · exact Wf_frame (fun x hx => hfp2' x (wsrc.fresh x hx)) (by omega) wsrc1
  · intro x hx
    have := hfr x hx
    omega
  · intro x hxd hxlt
    rw [hfp2' x hxlt, hfp1 x hxd]

theorem assignSelf_spec {T : Type} {s : St T} {d : Dq} {as : List Nat}
    {vs : List T} (w : Wf s d as vs) :
    ∃ s', assignSelf s d = some (s', ⟨none, none, 0⟩) := by
  obtain ⟨s1, hrun1, -, -, -⟩ := clear_spec w
  refine ⟨s1, ?_⟩
  show (do
    let (s2, d2) ← clear s d
    copyLoop d2.size_ s2 d2 d2.head_) = some (s1, ⟨none, none, 0⟩)
  rw [hrun1]
  simp [copyLoop]

end IpdDeque

namespace IpdDeque

theorem pushBackAll_spec {T : Type} :
    ∀ (l : List T) {s : St T} {d : Dq} {as : List Nat} {vs : List T},
      Wf s d as vs →
      ∃ s' d' as', pushBackAll s d l = some (s', d') ∧
        Wf s' d' as' (vs ++ l) := by
  intro l
  induction l with
  | nil =>
    intro s d as vs w
    exact ⟨s, d, as, rfl, by simpa using w⟩
  | cons v l ih =>
    intro s d as vs w
    obtain ⟨s1, d1, hrun1, w1, -, -, -, -⟩ := push_back_spec w v
    obtain ⟨s', d', as', hrun', w'⟩ := ih w1
    refine ⟨s', d', as', ?_, by simpa using w'⟩
    simp only [pushBackAll, hrun1, Option.bind_eq_bind, Option.some_bind]
    exact hrun'

theorem pushFrontAll_spec {T : Type} :
    ∀ (l : List T) {s : St T} {d : Dq} {as : List Nat} {vs : List T},
      Wf s d as vs →
      ∃ s' d' as', pushFrontAll s d l = some (s', d') ∧
        Wf s' d' as' (l.reverse ++ vs) := by
  intro l
  induction l with
  | nil =>
    intro s d as vs w
    exact ⟨s, d, as, rfl, by simpa using w⟩
  | cons v l ih =>
    intro s d as vs w
    obtain ⟨s1, d1, hrun1, w1, -, -, -, -⟩ := push_front_spec w v
    obtain ⟨s', d', as', hrun', w'⟩ := ih w1
    refine ⟨s', d', as', ?_, ?_⟩
    · simp only [pushFrontAll, hrun1, Option.bind_eq_bind, Option.some_bind]
      exact hrun'
    · simpa [List.append_assoc] using w'

theorem popFrontAll_spec {T : Type} :
    ∀ (as : List Nat) {vs : List T} {s : St T} {d : Dq},
      Wf s d as vs →
      ∃ s', popFrontAll as.length s d = some (vs, s', ⟨none, none, 0⟩) := by
  intro as
  induction as with
  | nil =>
    intro vs s d w
    cases vs with
    | cons v vs => exact absurd w.ch (by simp [seg])
    | nil =>
      obtain ⟨htl, hhd⟩ := w.ch
      have hsz : d.size_ = 0 := by simpa using w.sz
      have hd : d = ⟨none, none, 0⟩ := by
        cases d
        simp_all
      subst hd
      exact ⟨s, rfl⟩
  | cons a as₂ ih =>
    intro vs s d w
    cases vs with
    | nil => exact absurd w.ch (by simp [seg])
    | cons v vs₂ =>
      have hfv : frontV s d = some v := frontV_spec w
      obtain ⟨s1, d1, hrun1, w1, -, -, -, -, -⟩ := pop_front_spec w
      obtain ⟨s', hrun'⟩ := ih w1
      refine ⟨s', ?_⟩
      show popFrontAll (as₂.length + 1) s d = some (v :: vs₂, s', ⟨none, none, 0⟩)
      simp only [popFrontAll, hfv, hrun1, hrun', Option.bind_eq_bind,
        Option.some_bind, Option.pure_def]

theorem popBackAll_len {T : Type} :
    ∀ (n : Nat) (as : List Nat) {vs : List T} {s : St T} {d : Dq},
      as.length = n → Wf s d as vs →
      ∃ s', popBackAll as.length s d = some (vs.reverse, s', ⟨none, none, 0⟩) := by
  intro n
  induction n with
  | zero =>
    intro as vs s d hlen w
    have has : as = [] := List.length_eq_zero.mp hlen
    subst has
    cases vs with
    | cons v vs => exact absurd w.ch (by simp [seg])
    | nil =>
      obtain ⟨htl, hhd⟩ := w.ch
      have hsz : d.size_ = 0 := by simpa using w.sz
      have hd : d = ⟨none, none, 0⟩ := by
        cases d
        simp_all
      subst hd
      exact ⟨s, rfl⟩
  | succ n ih =>
    intro as vs s d hlen w
    rcases List.eq_nil_or_concat as with hnil | ⟨as₂, t, hcat⟩
    · subst hnil
      simp at hlen
    · rw [List.concat_eq_append] at hcat
      subst hcat
      rcases List.eq_nil_or_concat vs with hnil | ⟨vs₂, v, hcat2⟩
      · subst hnil
        have := seg_length (as₂ ++ [t]) w.ch
        simp at this
      · rw [List.concat_eq_append] at hcat2
        subst hcat2
        have hlen2 : as₂.length = vs₂.length := by
          have := seg_length (as₂ ++ [t]) w.ch
          simpa using this
        have hvne : vs₂ ++ [v] ≠ [] := by simp
        have hbv : backV s d = some v := by
          have := backV_spec w (by simp) hvne
          simpa [List.getLast_append] using this
        obtain ⟨s1, d1, hrun1, w1, -, -, -, -, -⟩ := pop_back_spec hlen2 w
        have hlen3 : as₂.length = n := by
          simp at hlen
          omega
        obtain ⟨s', hrun'⟩ := ih as₂ hlen3 w1
        refine ⟨s', ?_⟩
        have hfuel : (as₂ ++ [t]).length = as₂.length + 1 := by simp
        rw [hfuel]
        show popBackAll (as₂.length + 1) s d =
          some ((vs₂ ++ [v]).reverse, s', ⟨none, none, 0⟩)
        simp only [popBackAll, hbv, hrun1, hrun', Option.bind_eq_bind,
          Option.some_bind, Option.pure_def, List.reverse_append,
          List.reverse_singleton, List.singleton_append]

theorem runPP_size {T : Type} :
    ∀ (ops : List (PP T)) {s : St T} {d : Dq} {as : List Nat} {vs : List T},
      Wf s d as vs →
      ∃ s' d', runM (ops.map toMOp) s d = some (s', d') ∧ wf s' d' ∧
        d'.size_ + ppEffPops ops d.size_ = d.size_ + ppPushes ops := by
  intro ops
  induction ops with
  | nil =>
    intro s d as vs w
    exact ⟨s, d, rfl, ⟨as, vs, w⟩, by simp [ppEffPops, ppPushes]⟩
  | cons p rest ih =>
    intro s d as vs w
    obtain ⟨s1, d1, as1, vs1, hrun1, w1, -, -, -, hsz1⟩ :=
      applyM_spec w (toMOp p)
    obtain ⟨s', d', hrun', w', hacc⟩ := ih w1
    refine ⟨s', d', ?_, w', ?_⟩
    · show runM (toMOp p :: rest.map toMOp) s d = some (s', d')
      simp only [runM, hrun1, Option.bind_eq_bind, Option.some_bind]
      exact hrun'
    · cases p with
      | pf v =>
        simp only [toMOp, mSize] at hsz1
        rw [hsz1] at hacc
        simp only [ppEffPops, ppPushes]
        omega
      | pb v =>
        simp only [toMOp, mSize] at hsz1
        rw [hsz1] at hacc
        simp only [ppEffPops, ppPushes]
        omega
      | qf =>
        simp only [toMOp, mSize] at hsz1
        rw [hsz1] at hacc
        simp only [ppEffPops, ppPushes]
        by_cases hn : d.size_ = 0
        · simp only [if_pos hn]
          omega
        · simp only [if_neg hn]
          omega
      | qb =>
        simp only [toMOp, mSize] at hsz1
        rw [hsz1] at hacc
        simp only [ppEffPops, ppPushes]
        by_cases hn : d.size_ = 0
        · simp only [if_pos hn]
          omega
        · simp only [if_neg hn]
          omega

theorem wf_exDq : Wf exSt exDq [0] [1] :=
  ⟨⟨rfl, ⟨1, none, none⟩, rfl, rfl, rfl, rfl, rfl⟩, rfl, by simp,
    by intro a ha; simp at ha; simp [ha, exSt]⟩

theorem wf_exA : Wf exSt2 exA [0] [1] :=
  ⟨⟨rfl, ⟨1, none, none⟩, rfl, rfl, rfl, rfl, rfl⟩, rfl, by simp,
    by intro a ha; simp at ha; simp [ha, exSt2]⟩

theorem wf_exB : Wf exSt2 exB [1] [2] :=
  ⟨⟨rfl, ⟨2, none, none⟩, rfl, rfl, rfl, rfl, rfl⟩, rfl, by simp,
    by intro a ha; simp at ha; simp [ha, exSt2]⟩

end IpdDeque

namespace IpdDeque

theorem Wf_size_zero_iff_null {T : Type} {s : St T} {d : Dq} {as : List Nat}
    {vs : List T} (w : Wf s d as vs) :
    d.size_ = 0 ↔ d.head_ = none ∧ d.tail_ = none := by
  constructor
  · intro h0
    have has : as = [] := (Wf_size_zero_iff w).mp h0
    subst has
    cases vs with
    | cons v vs => exact absurd w.ch (by simp [seg])
    | nil =>
      obtain ⟨htl, hhd⟩ := w.ch
      exact ⟨hhd.symm, htl⟩
  · intro ⟨hh, ht⟩
    cases as with
    | nil => simpa using w.sz
    | cons a as =>
      cases vs with
      | nil => exact absurd w.ch (by simp [seg])
      | cons v vs =>
        have := w.ch.1
        rw [hh] at this
        exact absurd this (by simp)

theorem Wf_nexts_all {T : Type} {s : St T} {d : Dq} {as : List Nat}
    {vs : List T} (w : Wf s d as vs) :
    nexts s.heap d.size_ d.head_ = some none := by
  rw [w.sz]
  exact seg_nexts as w.ch

theorem Wf_nexts_tail {T : Type} {s : St T} {d : Dq} {as : List Nat}
    {vs : List T} (w : Wf s d as vs) (hne : as ≠ []) :
    nexts s.heap (d.size_ - 1) d.head_ = some d.tail_ := by
  have hvne : vs ≠ [] := by
    intro hq
    subst hq
    have := seg_length as w.ch
    simp at this
    exact hne this
  have hsplit : as.dropLast ++ [as.getLast hne] = as :=
    List.dropLast_append_getLast hne
  have hsplit2 : vs.dropLast ++ [vs.getLast hvne] = vs :=
    List.dropLast_append_getLast hvne
  have hch := w.ch
  rw [← hsplit, ← hsplit2] at hch
  have hlen : as.dropLast.length = vs.dropLast.length := by
    have := seg_length as w.ch
    simp [List.length_dropLast, this]
  obtain ⟨pm, om, seg1, seg2⟩ := seg_append_split as.dropLast hlen hch
  have hom : om = some (as.getLast hne) := seg2.1
  have hnx : nexts s.heap as.dropLast.length d.head_ = some om :=
    seg_nexts as.dropLast seg1
  have htl : d.tail_ = some (as.getLast hne) := Wf_tail_eq w hne
  rw [w.sz]
  have hdl : as.dropLast.length = as.length - 1 := by
    simp [List.length_dropLast]
  rw [← hdl, hnx, hom, htl]

/-- C1.  For two distinct deques (well-formed, sharing no node),
`a.splice(b)` returns with `a`'s front-to-back contents equal to `a`'s
prior contents followed by `b`'s prior contents, `b` empty, and
`a.size()` the sum of the two prior sizes.  The empty-`b` and empty-`a`
special cases are instances of this statement. -/
theorem splice_appends_and_empties_source {T : Type} {s : St T} {a b : Dq}
    {as bs : List Nat} {avs bvs : List T} (wa : Wf s a as avs)
    (wb : Wf s b bs bvs) (hdisj : List.Disjoint as bs) :
    ∃ s' a' b', splice s a b = some (s', a', b') ∧
      toList s' a' = toList s a ++ toList s b ∧
      emptyQ b' = true ∧ toList s' b' = [] ∧
      sizeQ a' = sizeQ a + sizeQ b := by
  obtain ⟨s', a', b', as', hrun, wa', wb', hb', hsz⟩ := splice_spec wa wb hdisj
  refine ⟨s', a', b', hrun, ?_, ?_, ?_, hsz⟩
  · rw [toList_eq wa', toList_eq wa, toList_eq wb]
  · rw [hb']
    rfl
  · exact toList_eq wb'

theorem splice_appends_witness :
    ∃ s' a' b', splice exSt2 exA exB = some (s', a', b') ∧
      toList s' a' = toList exSt2 exA ++ toList exSt2 exB ∧
      emptyQ b' = true ∧ toList s' b' = [] ∧
      sizeQ a' = sizeQ exA + sizeQ exB :=
  splice_appends_and_empties_source wf_exA wf_exB
    (by intro x hx hx2; simp at hx hx2; omega)

/-- C2.  The claim says self-assignment `a = a` is a no-op.  The code's
`operator=` first calls `clear()` and then copies from `other`, which
is the same object and now empty, so `a = a` in fact empties the
deque: on the concrete deque `[1]`, self-assignment returns the empty
deque instead of leaving `[1]` intact. -/
theorem assign_self_clears_bug :
    toList exSt exDq = [1] ∧ sizeQ exDq = 1 ∧
    assignSelf exSt exDq = some (exSt, ⟨none, none, 0⟩) :=
  ⟨rfl, rfl, rfl⟩

/-- C3.  The claim says every node removed by `pop_front`, `pop_back`,
`clear` or the destructor has its storage released.  The code never
executes `delete`: popping or clearing (the destructor only calls
`clear`) leaves the allocation state completely unchanged — the node
at address 0 is still allocated afterwards, so the storage is leaked,
never released. -/
theorem pop_and_clear_leak :
    pop_front exSt exDq = some (exSt, ⟨none, none, 0⟩) ∧
    pop_back exSt exDq = some (exSt, ⟨none, none, 0⟩) ∧
    clear exSt exDq = some (exSt, ⟨none, none, 0⟩) ∧
    exSt.heap 0 = some ⟨1, none, none⟩ :=
  ⟨rfl, rfl, rfl, rfl⟩

/-- C4 counterexample.  The claim asserts `a.splice(a)` terminates for
non-empty `a`; on the concrete one-element deque `[1]` the drain loop
runs out of any amount of fuel without finishing — the loop never
terminates. -/
theorem spliceSelf_diverges_cex : spliceSelfDiverges exSt exDq :=
  fun fuel => spliceSelf_none fuel wf_exDq (by simp)

/-- C4 (amended).  `splice` terminates for every pair of distinct
(well-formed, node-disjoint) deques, and the aliased call `a.splice(a)`
returns immediately when `a` is empty; only the aliased non-empty case
diverges. -/
theorem splice_terminates_distinct {T : Type} {s : St T} {a b : Dq}
    {as bs : List Nat} {avs bvs : List T} (wa : Wf s a as avs)
    (wb : Wf s b bs bvs) (hdisj : List.Disjoint as bs) :
    (∃ r, splice s a b = some r) ∧
    (∀ (fuel : Nat) (d : Dq), d.size_ = 0 → spliceSelf fuel s d = some (s, d)) := by
  obtain ⟨s', a', b', as', hrun, -, -, -, -⟩ := splice_spec wa wb hdisj
  exact ⟨⟨(s', a', b'), hrun⟩, fun fuel d h0 => spliceSelf_empty fuel s h0⟩

theorem splice_terminates_witness :
    (∃ r, splice exSt2 exA exB = some r) ∧
    (∀ (fuel : Nat) (d : Dq), d.size_ = 0 →
      spliceSelf fuel exSt2 d = some (exSt2, d)) :=
  splice_terminates_distinct wf_exA wf_exB
    (by intro x hx hx2; simp at hx hx2; omega)

/-- C5.  `pop_front`, `pop_back` and `clear` are total on well-formed
deques: on an empty deque each returns immediately leaving the deque
unchanged (so repeating them stays a no-op), and on any well-formed
deque all three succeed (never hit a null dereference). -/
theorem pops_and_clear_total {T : Type} {s : St T} {d : Dq} {as : List Nat}
    {vs : List T} (w : Wf s d as vs) :
    (d.size_ = 0 → pop_front s d = some (s, d) ∧ pop_back s d = some (s, d) ∧
      clear s d = some (s, d)) ∧
    (∃ r, pop_front s d = some r) ∧ (∃ r, pop_back s d = some r) ∧
    (∃ r, clear s d = some r) := by
  refine ⟨?_, ?_, ?_, ?_⟩
  · intro h0
    refine ⟨by simp [pop_front, h0], by simp [pop_back, h0], ?_⟩
    show clearLoop d.size_ s d = some (s, d)
    rw [h0]
    simp [clearLoop, h0]
  · obtain ⟨s', d', -, -, hrun, -⟩ := applyM_spec w MOp.popF
    exact ⟨(s', d'), hrun⟩
  · obtain ⟨s', d', -, -, hrun, -⟩ := applyM_spec w MOp.popB
    exact ⟨(s', d'), hrun⟩
  · obtain ⟨s', d', -, -, hrun, -⟩ := applyM_spec w MOp.clearM
    exact ⟨(s', d'), hrun⟩

theorem pops_and_clear_total_witness :
    ((emptyDq.size_ = 0 →
      pop_front (emptySt Nat) emptyDq = some (emptySt Nat, emptyDq) ∧
      pop_back (emptySt Nat) emptyDq = some (emptySt Nat, emptyDq) ∧
      clear (emptySt Nat) emptyDq = some (emptySt Nat, emptyDq)) ∧
    (∃ r, pop_front (emptySt Nat) emptyDq = some r) ∧
    (∃ r, pop_back (emptySt Nat) emptyDq = some r) ∧
    (∃ r, clear (emptySt Nat) emptyDq = some r)) ∧ emptyDq.size_ = 0 :=
  ⟨pops_and_clear_total (Wf_empty (emptySt Nat)), rfl⟩

end IpdDeque

namespace IpdDeque

/-- C6.  The structural invariant: `size_ = 0` exactly when both
boundary pointers are null; the chain from `head_` visits `size_`
distinct nodes (no cycle) whose values are the observable contents,
following `next` for `size_` steps ends at null and for `size_ - 1`
steps ends at `tail_` (with `prev` consistency, `head_->prev` and
`tail_->next` null, all encoded in `Wf`); and the invariant is
re-established by every public operation (pushes, pops, clear, copy
construction, self-assignment, and splice/assignment against any
disjoint well-formed second deque). -/
theorem invariant_preserved {T : Type} {s : St T} {d : Dq} (hwf : wf s d) :
    (sizeQ d = 0 ↔ d.head_ = none ∧ d.tail_ = none) ∧
    (∃ as vs, Wf s d as vs ∧ toList s d = vs ∧ sizeQ d = as.length ∧
      as.Nodup ∧ nexts s.heap (sizeQ d) d.head_ = some none ∧
      (sizeQ d ≠ 0 → nexts s.heap (sizeQ d - 1) d.head_ = some d.tail_)) ∧
    (∀ v, ∃ s' d', push_front s d v = some (s', d') ∧ wf s' d') ∧
    (∀ v, ∃ s' d', push_back s d v = some (s', d') ∧ wf s' d') ∧
    (∃ s' d', pop_front s d = some (s', d') ∧ wf s' d') ∧
    (∃ s' d', pop_back s d = some (s', d') ∧ wf s' d') ∧
    (∃ s' d', clear s d = some (s', d') ∧ wf s' d') ∧
    (∃ s' d', copyCtor s d = some (s', d') ∧ wf s' d' ∧ wf s' d) ∧
    (∃ s', assignSelf s d = some (s', ⟨none, none, 0⟩) ∧
      wf s' ⟨none, none, 0⟩) ∧
    (∀ e, wfPair s d e →
      (∃ s' d' e', splice s d e = some (s', d', e') ∧ wf s' d' ∧ wf s' e') ∧
      (∃ s' d', assign s d e = some (s', d') ∧ wf s' d' ∧ wf s' e)) := by
  obtain ⟨as, vs, w⟩ := hwf
  refine ⟨Wf_size_zero_iff_null w, ?_, ?_, ?_, ?_, ?_, ?_, ?_, ?_, ?_⟩
  · refine ⟨as, vs, w, toList_eq w, w.sz, w.nd, Wf_nexts_all w, ?_⟩
    intro h0
    have hne : as ≠ [] := fun hq => h0 ((Wf_size_zero_iff w).mpr hq)
    exact Wf_nexts_tail w hne
  · intro v
    obtain ⟨s', d', hrun, w', -, -, -, -⟩ := push_front_spec w v
    exact ⟨s', d', hrun, ⟨_, _, w'⟩⟩
  · intro v
    obtain ⟨s', d', hrun, w', -, -, -, -⟩ := push_back_spec w v
    exact ⟨s', d', hrun, ⟨_, _, w'⟩⟩
  · obtain ⟨s', d', as', vs', hrun, w', -, -, -, -⟩ := applyM_spec w MOp.popF
    exact ⟨s', d', hrun, ⟨as', vs', w'⟩⟩
  · obtain ⟨s', d', as', vs', hrun, w', -, -, -, -⟩ := applyM_spec w MOp.popB
    exact ⟨s', d', hrun, ⟨as', vs', w'⟩⟩
  · obtain ⟨s', hrun, -, -, -⟩ := clear_spec w
    exact ⟨s', ⟨none, none, 0⟩, hrun, ⟨[], [], Wf_empty s'⟩⟩
  · obtain ⟨s', d', ds', hrun, w', wsrc', -, -, -⟩ := copyCtor_spec w
    exact ⟨s', d', hrun, ⟨ds', vs, w'⟩, ⟨as, vs, wsrc'⟩⟩
  · obtain ⟨s', hrun⟩ := assignSelf_spec w
    exact ⟨s', hrun, ⟨[], [], Wf_empty s'⟩⟩
  · intro e ⟨as2, vs2, bs2, ws2, wd2, we2, hdisj2⟩
    constructor
    · obtain ⟨s', a', b', as', hrun, wa', wb', -, -⟩ :=
        splice_spec wd2 we2 hdisj2
      exact ⟨s', a', b', hrun, ⟨as', _, wa'⟩, ⟨[], [], wb'⟩⟩
    · obtain ⟨s', d', ds', hrun, w', wsrc', -, -, -⟩ :=
        assign_spec wd2 we2 hdisj2
      exact ⟨s', d', hrun, ⟨ds', ws2, w'⟩, ⟨bs2, ws2, wsrc'⟩⟩

theorem invariant_preserved_witness :
    (sizeQ exDq = 0 ↔ exDq.head_ = none ∧ exDq.tail_ = none) ∧
    (∃ as vs, Wf exSt exDq as vs ∧ toList exSt exDq = vs ∧
      sizeQ exDq = as.length ∧ as.Nodup ∧
      nexts exSt.heap (sizeQ exDq) exDq.head_ = some none ∧
      (sizeQ exDq ≠ 0 →
        nexts exSt.heap (sizeQ exDq - 1) exDq.head_ = some exDq.tail_)) ∧
    (∀ v, ∃ s' d', push_front exSt exDq v = some (s', d') ∧ wf s' d') ∧
    (∀ v, ∃ s' d', push_back exSt exDq v = some (s', d') ∧ wf s' d') ∧
    (∃ s' d', pop_front exSt exDq = some (s', d') ∧ wf s' d') ∧
    (∃ s' d', pop_back exSt exDq = some (s', d') ∧ wf s' d') ∧
    (∃ s' d', clear exSt exDq = some (s', d') ∧ wf s' d') ∧
    (∃ s' d', copyCtor exSt exDq = some (s', d') ∧ wf s' d' ∧ wf s' exDq) ∧
    (∃ s', assignSelf exSt exDq = some (s', ⟨none, none, 0⟩) ∧
      wf s' ⟨none, none, 0⟩) ∧
    (∀ e, wfPair exSt exDq e →
      (∃ s' d' e', splice exSt exDq e = some (s', d', e') ∧
        wf s' d' ∧ wf s' e') ∧
      (∃ s' d', assign exSt exDq e = some (s', d') ∧ wf s' d' ∧ wf s' e)) :=
  invariant_preserved ⟨[0], [1], wf_exDq⟩

/-- C7.  Round-trip order: pushing `v1..vn` with `push_back` onto an
empty deque and then reading `front()` before each `pop_front` yields
`v1..vn`, ending empty; pushing them with `push_front` and reading
`back()` before each `pop_back` yields the same order `v1..vn`. -/
theorem round_trip_order {T : Type} (l : List T) (s : St T) :
    (∃ s1 d1 s2, pushBackAll s emptyDq l = some (s1, d1) ∧
      popFrontAll (sizeQ d1) s1 d1 = some (l, s2, ⟨none, none, 0⟩)) ∧
    (∃ s1 d1 s2, pushFrontAll s emptyDq l = some (s1, d1) ∧
      popBackAll (sizeQ d1) s1 d1 = some (l, s2, ⟨none, none, 0⟩)) := by
  constructor
  · obtain ⟨s1, d1, as1, hrun1, w1⟩ := pushBackAll_spec l (Wf_empty s)
    obtain ⟨s2, hrun2⟩ := popFrontAll_spec as1 w1
    refine ⟨s1, d1, s2, hrun1, ?_⟩
    show popFrontAll d1.size_ s1 d1 = some (l, s2, ⟨none, none, 0⟩)
    rw [w1.sz]
    simpa using hrun2
  · obtain ⟨s1, d1, as1, hrun1, w1⟩ := pushFrontAll_spec l (Wf_empty s)
    obtain ⟨s2, hrun2⟩ := popBackAll_len as1.length as1 rfl w1
    refine ⟨s1, d1, s2, hrun1, ?_⟩
    show popBackAll d1.size_ s1 d1 = some (l, s2, ⟨none, none, 0⟩)
    rw [w1.sz]
    simpa using hrun2

/-- C9.  On a non-empty well-formed deque, `front()` returns the first
value and `back()` the last value of the contents, and neither hits
the null-dereference branch (the reads are pure, with no side effect
on the state); on an empty deque both dereference null (`none`), the
contract violation the precondition excludes. -/
theorem front_back_correct {T : Type} {s : St T} {d : Dq} {as : List Nat}
    {vs : List T} (w : Wf s d as vs) :
    (sizeQ d ≠ 0 → ∃ hv : vs ≠ [], frontV s d = some (vs.head hv) ∧
      backV s d = some (vs.getLast hv) ∧ toList s d = vs) ∧
    (∀ s0 : St T, frontV s0 ⟨none, none, 0⟩ = none ∧
      backV s0 ⟨none, none, 0⟩ = none) := by
  constructor
  · intro h0
    cases as with
    | nil => exact absurd w.sz (by simpa using h0)
    | cons a as₂ =>
      cases vs with
      | nil => exact absurd w.ch (by simp [seg])
      | cons v vs₂ =>
        refine ⟨by simp, ?_, ?_, toList_eq w⟩
        · simpa using frontV_spec w
        · exact backV_spec w (by simp) (by simp)
  · intro s0
    exact ⟨rfl, rfl⟩

theorem front_back_witness :
    ((sizeQ exDq ≠ 0 → ∃ hv : ([1] : List Nat) ≠ [],
      frontV exSt exDq = some (([1] : List Nat).head hv) ∧
      backV exSt exDq = some (([1] : List Nat).getLast hv) ∧
      toList exSt exDq = [1]) ∧
    (∀ s0 : St Nat, frontV s0 ⟨none, none, 0⟩ = none ∧
      backV s0 ⟨none, none, 0⟩ = none)) ∧ sizeQ exDq ≠ 0 :=
  ⟨front_back_correct wf_exDq, by decide⟩

/-- C10.  For every sequence of push/pop operations run on an initially
empty deque, the final `size()` equals the number of pushes minus the
number of pops that actually removed an element (pops on an empty
deque count zero); and `empty()` agrees with `size() == 0` for every
deque value. -/
theorem size_accounting {T : Type} (ops : List (PP T)) (s : St T) :
    (∃ s' d', runPP ops s emptyDq = some (s', d') ∧
      sizeQ d' + ppEffPops ops 0 = ppPushes ops ∧
      sizeQ d' = ppPushes ops - ppEffPops ops 0 ∧
      ppEffPops ops 0 ≤ ppPushes ops) ∧
    (∀ e : Dq, emptyQ e = true ↔ sizeQ e = 0) := by
  constructor
  · obtain ⟨s', d', hrun, -, hacc⟩ := runPP_size ops (Wf_empty s)
    have hacc' : sizeQ d' + ppEffPops ops 0 = ppPushes ops := by
      simpa [emptyDq, sizeQ] using hacc
    exact ⟨s', d', hrun, hacc', by omega, by omega⟩
  · intro e
    simp [emptyQ, sizeQ]

end IpdDeque

namespace IpdDeque

/-- C8.  Copy construction and copy-assignment from a distinct deque
produce a deque with the same front-to-back contents built from fresh
nodes (the address sets are disjoint — no node is shared), and the two
deques are independent afterwards: any sequence of mutating operations
applied to either one leaves the other's contents unchanged (the
other's record, hence its `size()`, is untouched by construction). -/
theorem copy_deep_and_independent {T : Type} {s : St T} {src : Dq}
    {as : List Nat} {vs : List T} (w : Wf s src as vs) :
    (∃ s' d' ds', copyCtor s src = some (s', d') ∧
      toList s' d' = toList s src ∧ sizeQ d' = sizeQ src ∧
      List.Disjoint ds' as ∧ Wf s' d' ds' vs ∧ Wf s' src as vs ∧
      (∀ ops : List (MOp T), ∃ s'' d'', runM ops s' d' = some (s'', d'') ∧
        toList s'' src = toList s' src) ∧
      (∀ ops : List (MOp T), ∃ s'' d'', runM ops s' src = some (s'', d'') ∧
        toList s'' d' = toList s' d')) ∧
    (∀ dst dsa dvs, Wf s dst dsa dvs → List.Disjoint dsa as →
      ∃ s' d' ds', assign s dst src = some (s', d') ∧
        toList s' d' = toList s src ∧ sizeQ d' = sizeQ src ∧
        List.Disjoint ds' as ∧ Wf s' d' ds' vs ∧ Wf s' src as vs ∧
        (∀ ops : List (MOp T), ∃ s'' d'', runM ops s' d' = some (s'', d'') ∧
          toList s'' src = toList s' src) ∧
        (∀ ops : List (MOp T), ∃ s'' d'', runM ops s' src = some (s'', d'') ∧
          toList s'' d' = toList s' d')) := by
  have hlen : as.length = vs.length := seg_length as w.ch
  constructor
  · obtain ⟨s', d', ds', hrun, w', wsrc', hfr, hna, hfp⟩ := copyCtor_spec w
    have hdisj1 : List.Disjoint ds' as := fun x hx hx2 =>
      Nat.lt_irrefl x (Nat.lt_of_lt_of_le (w.fresh x hx2) (hfr x hx))
    have hdisj2 : List.Disjoint as ds' := fun x hx hx2 =>
      Nat.lt_irrefl x (Nat.lt_of_lt_of_le (w.fresh x hx) (hfr x hx2))
    have hlen2 : ds'.length = vs.length := seg_length ds' w'.ch
    refine ⟨s', d', ds', hrun, ?_, ?_, hdisj1, w', wsrc', ?_, ?_⟩
    · rw [toList_eq w', toList_eq w]
    · show d'.size_ = src.size_
      rw [w'.sz, w.sz, hlen2, hlen]
    · intro ops
      obtain ⟨s'', d'', hrun2, -, htl, -⟩ := runM_frame w' wsrc' hdisj2 ops
      exact ⟨s'', d'', hrun2, htl⟩
    · intro ops
      obtain ⟨s'', d'', hrun2, -, htl, -⟩ := runM_frame wsrc' w' hdisj1 ops
      exact ⟨s'', d'', hrun2, htl⟩
  · intro dst dsa dvs wd hdisj
    obtain ⟨s', d', ds', hrun, w', wsrc', hfr, hna, hfp⟩ :=
      assign_spec wd w hdisj
    have hdisj1 : List.Disjoint ds' as := fun x hx hx2 =>
      Nat.lt_irrefl x (Nat.lt_of_lt_of_le (w.fresh x hx2) (hfr x hx))
    have hdisj2 : List.Disjoint as ds' := fun x hx hx2 =>
      Nat.lt_irrefl x (Nat.lt_of_lt_of_le (w.fresh x hx) (hfr x hx2))
    have hlen2 : ds'.length = vs.length := seg_length ds' w'.ch
    refine ⟨s', d', ds', hrun, ?_, ?_, hdisj1, w', wsrc', ?_, ?_⟩
    · rw [toList_eq w', toList_eq w]
    · show d'.size_ = src.size_
      rw [w'.sz, w.sz, hlen2, hlen]
    · intro ops
      obtain ⟨s'', d'', hrun2, -, htl, -⟩ := runM_frame w' wsrc' hdisj2 ops
      exact ⟨s'', d'', hrun2, htl⟩
    · intro ops
      obtain ⟨s'', d'', hrun2, -, htl, -⟩ := runM_frame wsrc' w' hdisj1 ops
      exact ⟨s'', d'', hrun2, htl⟩

theorem copy_deep_witness :
    (∃ s' d' ds', copyCtor exSt exDq = some (s', d') ∧
      toList s' d' = toList exSt exDq ∧ sizeQ d' = sizeQ exDq ∧
      List.Disjoint ds' [0] ∧ Wf s' d' ds' [1] ∧ Wf s' exDq [0] [1] ∧
      (∀ ops : List (MOp Nat), ∃ s'' d'', runM ops s' d' = some (s'', d'') ∧
        toList s'' exDq = toList s' exDq) ∧
      (∀ ops : List (MOp Nat), ∃ s'' d'', runM ops s' exDq = some (s'', d'') ∧
        toList s'' d' = toList s' d')) ∧
    (∀ dst dsa dvs, Wf exSt dst dsa dvs → List.Disjoint dsa [0] →
      ∃ s' d' ds', assign exSt dst exDq = some (s', d') ∧
        toList s' d' = toList exSt exDq ∧ sizeQ d' = sizeQ exDq ∧
        List.Disjoint ds' [0] ∧ Wf s' d' ds' [1] ∧ Wf s' exDq [0] [1] ∧
        (∀ ops : List (MOp Nat), ∃ s'' d'', runM ops s' d' = some (s'', d'') ∧
          toList s'' exDq = toList s' exDq) ∧
        (∀ ops : List (MOp Nat), ∃ s'' d'', runM ops s' exDq = some (s'', d'') ∧
          toList s'' d' = toList s' d')) :=
  copy_deep_and_independent wf_exDq

end IpdDeque
